import Mathlib

/-!
Verification development for pyflyby's `_parse.py`: exact source-span recovery
and statement/comment splitting.  The definitions below are a shallow embedding
of the functions in `lib/python/pyflyby/_parse.py`; external collaborators
(the text/position primitives of `pyflyby._file`, the CPython parser, the
flag bitset of `pyflyby._flags`, and the memoizing `cached_attribute` of
`pyflyby._util`) are modelled from the specification, as noted on each
definition.
-/

namespace PyflybyParse

/-- Modelled from the spec: `pyflyby._file.FilePos` (not under `src/`) — a
1-indexed `(line, column)` coordinate with a total lexicographic order and
delta arithmetic (spec §3 "Position"). -/
structure FilePos where
  lineno : Nat
  colno : Nat
deriving DecidableEq, Repr

def FilePos.key (p : FilePos) : Lex (Nat × Nat) := toLex (p.lineno, p.colno)

theorem FilePos.key_injective : Function.Injective FilePos.key := by
  intro a b h
  cases a; cases b
  simpa [FilePos.key, Prod.ext_iff] using h

instance : LinearOrder FilePos := LinearOrder.lift' FilePos.key FilePos.key_injective

theorem FilePos.lt_def {a b : FilePos} :
    a < b ↔ a.lineno < b.lineno ∨ (a.lineno = b.lineno ∧ a.colno < b.colno) := by
  show FilePos.key a < FilePos.key b ↔ _
  rw [FilePos.key, FilePos.key, Prod.Lex.lt_iff]

theorem FilePos.le_def {a b : FilePos} :
    a ≤ b ↔ a.lineno < b.lineno ∨ (a.lineno = b.lineno ∧ a.colno ≤ b.colno) := by
  show FilePos.key a ≤ FilePos.key b ↔ _
  rw [FilePos.key, FilePos.key, Prod.Lex.le_iff]

/-- Modelled from the spec: offset-by-delta arithmetic relative to an anchor
position (spec §3: "a sub-span's internal line-1 maps to some absolute
line N").  `FilePos + (dl, dc)` from `pyflyby._file`: a delta on the anchor
line offsets from the anchor column, a delta on a later line from column 1. -/
def FilePos.addDelta (p : FilePos) (dl dc : Nat) : FilePos :=
  ⟨p.lineno + dl, (if dl = 0 then p.colno else 1) + dc⟩

/-- Split a character list at newline characters; the analogue of
`str.split("\n")`, so the result is always nonempty and its parts are
newline-free. -/
def splitLinesAux : List Char → List Char → List (List Char)
  | [], acc => [acc.reverse]
  | c :: cs, acc =>
    if c = '\n' then acc.reverse :: splitLinesAux cs [] else splitLinesAux cs (c :: acc)

def splitLines (s : List Char) : List (List Char) := splitLinesAux s []

/-- Inverse of `splitLines`: join lines with newline separators, the analogue
of `"\n".join(lines)`. -/
def joinLines : List (List Char) → List Char
  | [] => []
  | [l] => l
  | l :: l2 :: ls => l ++ '\n' :: joinLines (l2 :: ls)

theorem splitLinesAux_ne_nil (s acc : List Char) : splitLinesAux s acc ≠ [] := by
  induction s generalizing acc with
  | nil => simp [splitLinesAux]
  | cons c cs ih =>
    simp only [splitLinesAux]
    split
    · simp
    · exact ih _

theorem splitLines_ne_nil (s : List Char) : splitLines s ≠ [] :=
  splitLinesAux_ne_nil s []

theorem joinLines_splitLinesAux (s acc : List Char) :
    joinLines (splitLinesAux s acc) = acc.reverse ++ s := by
  induction s generalizing acc with
  | nil => simp [splitLinesAux, joinLines]
  | cons c cs ih =>
    simp only [splitLinesAux]
    split
    · rename_i hc
      have hne := splitLinesAux_ne_nil cs ([] : List Char)
      match h : splitLinesAux cs [] with
      | [] => exact absurd h hne
      | l2 :: ls =>
        simp only [joinLines]
        have := ih ([] : List Char)
        rw [h] at this
        simp only [List.reverse_nil, List.nil_append] at this
        subst hc
        simp [this]
    · rw [ih]
      simp

theorem joinLines_splitLines (s : List Char) : joinLines (splitLines s) = s := by
  simpa using joinLines_splitLinesAux s []

theorem joinLines_length (ls : List (List Char)) :
    (joinLines ls).length = (ls.map List.length).sum + (ls.length - 1) := by
  induction ls with
  | nil => simp [joinLines]
  | cons l ls ih =>
    match ls with
    | [] => simp [joinLines]
    | l2 :: ls' =>
      simp only [joinLines, List.length_append, List.length_cons, ih,
        List.map_cons, List.sum_cons]
      omega

/-- Modelled from the spec: `pyflyby._file.FileText` (not under `src/`) — an
immutable text buffer addressable by (1-indexed) line, sliceable by a position
range, with an anchor start position and a derived end position (spec §3
"Text span").  `content` is the joined text; the stored line list of the
Python object corresponds to `splitLines content`. -/
structure FileText where
  startpos : FilePos
  content : List Char
deriving DecidableEq, Repr

def FileText.lines (t : FileText) : List (List Char) := splitLines t.content

/-- Column number of the first character of an (absolute) line: the anchor
column on the anchor line, 1 on every later line. -/
def FileText.colBase (t : FileText) (l : Nat) : Nat :=
  if l = t.startpos.lineno then t.startpos.colno else 1

/-- The line of the text with absolute line number `l` (newline-free), the
analogue of `text[l]`. -/
def FileText.getLine (t : FileText) (l : Nat) : List Char :=
  t.lines.getD (l - t.startpos.lineno) []

/-- Position just past the last character, the analogue of `text.endpos`. -/
def FileText.endpos (t : FileText) : FilePos :=
  ⟨t.startpos.lineno + t.lines.length - 1,
   t.colBase (t.startpos.lineno + t.lines.length - 1) + (t.lines.getLastD []).length⟩

/-- Character offset of position `p` into `content` (meaningful for valid
positions; total by Nat truncation). -/
def FileText.off (t : FileText) (p : FilePos) : Nat :=
  (((t.lines.take (p.lineno - t.startpos.lineno)).map (fun l => l.length + 1)).sum)
    + (p.colno - t.colBase p.lineno)

/-- Slice of the text between two positions, the analogue of `text[p:q]`. -/
def FileText.slice (t : FileText) (p q : FilePos) : FileText :=
  ⟨p, (t.content.drop (t.off p)).take (t.off q - t.off p)⟩

/-- A position that actually lies within the text (on some line, between the
line's base column and one past its last character). -/
def FileText.ValidPos (t : FileText) (p : FilePos) : Prop :=
  t.startpos.lineno ≤ p.lineno ∧
  p.lineno - t.startpos.lineno < t.lines.length ∧
  t.colBase p.lineno ≤ p.colno ∧
  p.colno ≤ t.colBase p.lineno + (t.getLine p.lineno).length

instance (t : FileText) (p : FilePos) : Decidable (t.ValidPos p) := by
  unfold FileText.ValidPos
  infer_instance

/-! ### The comment-or-blank predicate (`_is_comment_or_blank`, lines 20–30) -/

mutual

/-- Drop from a hash sign to the end of its line, the effect of
`re.sub("#.*", "", line)` (a dot does not match a newline). -/
def stripComments : List Char → List Char
  | [] => []
  | c :: cs => if c = '#' then stripAfterHash cs else c :: stripComments cs

/-- Helper of `stripComments`: skip until the next newline (kept). -/
def stripAfterHash : List Char → List Char
  | [] => []
  | c :: cs => if c = '\n' then c :: stripComments cs else stripAfterHash cs

end

/-- Whitespace characters removed by Python's `str.rstrip()`. -/
def isPyWhitespace (c : Char) : Bool :=
  c = ' ' || c = '\t' || c = '\n' || c = '\r' || c = Char.ofNat 11 || c = Char.ofNat 12

def rstrip (s : List Char) : List Char :=
  (s.reverse.dropWhile isPyWhitespace).reverse

/-- `_is_comment_or_blank` (lines 20–30): a piece of code contains only a
comment or is blank. -/
def is_comment_or_blank (s : List Char) : Bool :=
  (rstrip (stripComments s)).isEmpty

/-- The `line.endswith("\\")` test on a (newline-free) source line. -/
def endsWithBackslash (s : List Char) : Bool :=
  s.getLast? = some '\\'

/-! ### The statement/comment splitter (`_split_code_lines`, lines 405–484)

The splitter consumes annotated top-level AST nodes; all it reads from a node
is its `startpos` and its optional `endpos`, so a node is embedded as that
pair.  A yielded `(nodes, subtext)` tuple is embedded as a `Chunk` holding the
node list and the boundary positions of the slice `text[start:stop]`.
Failing `assert` statements are modelled by returning `none`. -/

structure SplitNode where
  startpos : FilePos
  endpos : Option FilePos
deriving DecidableEq, Repr

structure Chunk where
  nodes : List SplitNode
  start : FilePos
  stop : FilePos
deriving DecidableEq, Repr

/-- The backward walk of lines 476–480: while the preceding line is
comment-or-blank, the boundary line is at least two lines below the node's
start line, and the line before the preceding one does not end in a
backslash, move the boundary up one line.  Fuel-driven (the initial fuel `l`
always suffices since the line number strictly decreases). -/
def walkBackAux (t : FileText) (sline : Nat) : Nat → Nat → Nat
  | 0, l => l
  | fuel + 1, l =>
    if decide (sline + 1 < l) && is_comment_or_blank (t.getLine (l - 1)) &&
        ! endsWithBackslash (t.getLine (l - 2)) then
      walkBackAux t sline fuel (l - 1)
    else l

def walkBack (t : FileText) (sline l : Nat) : Nat := walkBackAux t sline l l

/-- Lines 458–475: when no explicit end position is available and the
provisional boundary is mid-line, either leave it (mid-line boundary, not at
end of text), or handle a trailing comment on the very last line of the text
with no trailing newline.  `none` models the failing `assert` of line 464. -/
def splitStep1 (t : FileText) (node : SplitNode) (e0 : FilePos) : Option FilePos :=
  if e0.colno ≠ 1 then
    if e0 = t.endpos then
      if is_comment_or_blank (t.getLine e0.lineno) then
        if node.startpos.lineno < e0.lineno then
          some (if endsWithBackslash (t.getLine (e0.lineno - 1)) then e0
                else ⟨e0.lineno, 1⟩)
        else none
      else some e0
    else some e0
  else some e0

/-- Lines 438–480: determine the end boundary of the chunk owned by `node`,
given the following node's start (or the text's end) `nextStart`.  `none`
models a failing `assert`. -/
def computeEndpos (t : FileText) (node : SplitNode) (nextStart : FilePos) :
    Option FilePos :=
  match node.endpos with
  | some e =>
    -- lines 438–451: multiline-string case; absorb a trailing comment on the
    -- same line only (never look more than one line ahead).
    if node.startpos < e ∧ e ≤ nextStart ∧ e.colno ≠ 1 then
      some (if is_comment_or_blank
              ((t.slice e (min t.endpos ⟨e.lineno + 1, 1⟩)).content)
            then ⟨e.lineno + 1, 1⟩ else e)
    else none
  | none =>
    -- lines 452–480: start from the next node's start and work backward.
    if nextStart ≤ t.endpos then
      (splitStep1 t node nextStart).map fun e1 =>
        if e1.colno = 1 then ⟨walkBack t node.startpos.lineno e1.lineno, 1⟩ else e1
    else none

/-- One iteration of the loop of lines 431–484: yield the chunk owning `node`
and, if the resolved boundary is short of the next node's start, the
following comment/blank chunk. -/
def splitStep (t : FileText) (node : SplitNode) (nextStart : FilePos) :
    Option (List Chunk) :=
  if node.startpos < nextStart then
    match computeEndpos t node nextStart with
    | none => none
    | some e =>
      if node.startpos < e ∧ e ≤ nextStart then
        some (⟨[node], node.startpos, e⟩ ::
          (if e ≠ nextStart then [⟨[], e, nextStart⟩] else []))
      else none
  else none

/-- The loop of lines 431–484 over all nodes (the next node's start, or
`text.endpos` for the last node, is the provisional boundary). -/
def splitLoop (t : FileText) : SplitNode → List SplitNode → Option (List Chunk)
  | node, [] => splitStep t node t.endpos
  | node, n :: rest =>
    match splitStep t node n.startpos with
    | none => none
    | some cs1 => (splitLoop t n rest).map fun cs => cs1 ++ cs

/-- `_split_code_lines` (lines 405–484): split annotated top-level nodes and
the enclosing text into statement and comment/blank chunks. -/
def split_code_lines (nodes : List SplitNode) (t : FileText) : Option (List Chunk) :=
  match nodes with
  | [] => some [⟨[], t.startpos, t.endpos⟩]
  | n :: rest =>
    if t.startpos ≤ n.startpos ∧ (rest.getLastD n).startpos < t.endpos then
      let lead : List Chunk :=
        if t.startpos ≠ n.startpos then [⟨[], t.startpos, n.startpos⟩] else []
      (splitLoop t n rest).map fun cs => lead ++ cs
    else none

/-! ### Offset and validity lemmas for `FileText` -/

theorem FileText.lines_ne_nil (t : FileText) : t.lines ≠ [] :=
  splitLines_ne_nil t.content

theorem FileText.off_startpos (t : FileText) : t.off t.startpos = 0 := by
  simp [FileText.off, FileText.colBase]

theorem FileText.content_length (t : FileText) :
    t.content.length = (t.lines.map List.length).sum + (t.lines.length - 1) := by
  conv_lhs => rw [← joinLines_splitLines t.content]
  exact joinLines_length _

theorem sum_map_take_last {α : Type} (f : α → Nat) (d : α) :
    ∀ (ls : List α), ls ≠ [] →
      ((ls.take (ls.length - 1)).map f).sum + f (ls.getLastD d) = (ls.map f).sum := by
  intro ls
  induction ls with
  | nil => simp
  | cons a ls ih =>
    intro _
    match ls with
    | [] => simp [List.getLastD]
    | b :: ls' =>
      have h2 := ih (by simp)
      simp only [List.length_cons, Nat.add_sub_cancel, List.take_succ_cons,
        List.map_cons, List.sum_cons, List.getLastD_cons] at *
      omega

theorem FileText.off_endpos (t : FileText) : t.off t.endpos = t.content.length := by
  have hne := t.lines_ne_nil
  have hpos : 0 < t.lines.length := List.length_pos.mpr hne
  have hmap : ∀ (ls : List (List Char)),
      (ls.map fun l => l.length + 1).sum = (ls.map List.length).sum + ls.length := by
    intro ls
    induction ls with
    | nil => simp
    | cons a ls ih => simp only [List.map_cons, List.sum_cons, List.length_cons, ih]; omega
  have key : ((t.lines.take (t.lines.length - 1)).map fun l => l.length + 1).sum
      + ((t.lines.getLastD []).length + 1)
      = (t.lines.map List.length).sum + t.lines.length := by
    rw [sum_map_take_last (fun l => l.length + 1) [] t.lines hne]
    exact hmap t.lines
  have hlineno : t.endpos.lineno - t.startpos.lineno = t.lines.length - 1 := by
    simp only [FileText.endpos]
    omega
  have hcol : t.endpos.colno - t.colBase t.endpos.lineno = (t.lines.getLastD []).length := by
    simp only [FileText.endpos]
    omega
  simp only [FileText.off]
  rw [hlineno, hcol, t.content_length]
  omega

theorem sum_map_take_mono {α : Type} (f : α → Nat) (ls : List α) {i j : Nat} (h : i ≤ j) :
    ((ls.take i).map f).sum ≤ ((ls.take j).map f).sum := by
  have : ls.take j = ls.take i ++ (ls.drop i).take (j - i) := by
    rw [← List.take_add]
    congr 1
    omega
  rw [this]
  simp

theorem sum_map_take_succ {α : Type} (f : α → Nat) (ls : List α) (d : α) {i : Nat}
    (h : i < ls.length) :
    ((ls.take (i + 1)).map f).sum = ((ls.take i).map f).sum + f (ls.getD i d) := by
  rw [List.take_succ]
  have : ls[i]? = some (ls.getD i d) := by
    rw [List.getD_eq_getElem?_getD, List.getElem?_eq_getElem h]
    simp [List.getElem?_eq_getElem h]
  rw [this]
  simp

theorem FileText.off_mono (t : FileText) {p q : FilePos}
    (hp : t.ValidPos p) (hpq : p ≤ q) (hq : t.startpos.lineno ≤ q.lineno) :
    t.off p ≤ t.off q := by
  rcases FilePos.le_def.mp hpq with hlt | ⟨heq, hcol⟩
  · -- strictly earlier line: `off p` is at most the end of p's line, which is
    -- below the start of q's line.
    obtain ⟨hp1, hp2, hp3, hp4⟩ := hp
    have hip : p.lineno - t.startpos.lineno < q.lineno - t.startpos.lineno := by omega
    have hstep := sum_map_take_succ (fun l => l.length + 1) t.lines []
      (i := p.lineno - t.startpos.lineno) hp2
    have hmono := sum_map_take_mono (fun l => l.length + 1) t.lines
      (i := p.lineno - t.startpos.lineno + 1) (j := q.lineno - t.startpos.lineno)
      (by omega)
    simp only [FileText.off, FileText.getLine] at *
    omega
  · simp only [FileText.off, heq]
    have : t.colBase p.lineno = t.colBase q.lineno := by rw [heq]
    omega

theorem take_drop_take_append (s : List Char) {i j k : Nat} (hij : i ≤ j) (hjk : j ≤ k) :
    (s.drop i).take (j - i) ++ (s.drop j).take (k - j) = (s.drop i).take (k - i) := by
  have h1 : (s.drop i).drop (j - i) = s.drop j := by
    rw [List.drop_drop]
    congr 1
    omega
  have hk : k - i = (j - i) + (k - j) := by omega
  rw [hk, List.take_add, h1]

theorem FileText.startpos_le_endpos (t : FileText) : t.startpos ≤ t.endpos := by
  have hpos : 0 < t.lines.length := List.length_pos.mpr t.lines_ne_nil
  rw [FilePos.le_def]
  simp only [FileText.endpos, FileText.colBase]
  rcases Nat.lt_or_ge 1 t.lines.length with h | h
  · left; omega
  · right
    have h1 : t.lines.length = 1 := by omega
    simp [h1]

theorem FileText.valid_startpos (t : FileText) : t.ValidPos t.startpos := by
  refine ⟨le_refl _, ?_, ?_, ?_⟩
  · simpa using List.length_pos.mpr t.lines_ne_nil
  · simp [FileText.colBase]
  · simp [FileText.colBase]

theorem getD_length_sub_one {α : Type} (d : α) (ls : List α) :
    ls.getD (ls.length - 1) d = ls.getLastD d := by
  rw [List.getD_eq_getElem?_getD, List.getLastD_eq_getLast?, List.getLast?_eq_getElem?]

theorem FileText.valid_endpos (t : FileText) : t.ValidPos t.endpos := by
  have hpos : 0 < t.lines.length := List.length_pos.mpr t.lines_ne_nil
  have hlineno : t.endpos.lineno - t.startpos.lineno = t.lines.length - 1 := by
    simp only [FileText.endpos]; omega
  have hgl : t.getLine t.endpos.lineno = t.lines.getLastD [] := by
    rw [FileText.getLine, hlineno]
    exact getD_length_sub_one [] t.lines
  refine ⟨?_, by omega, ?_, ?_⟩
  · simp only [FileText.endpos]; omega
  · simp only [FileText.endpos]
    omega
  · rw [hgl]
    simp only [FileText.endpos]
    omega

theorem FileText.valid_of_col1 (t : FileText) {p : FilePos}
    (hanchor : 1 ≤ t.startpos.colno) (h1 : t.startpos ≤ p) (h2 : p ≤ t.endpos)
    (hcol : p.colno = 1) : t.ValidPos p := by
  have hpos : 0 < t.lines.length := List.length_pos.mpr t.lines_ne_nil
  have hlineno2 : p.lineno ≤ t.startpos.lineno + t.lines.length - 1 := by
    rcases FilePos.le_def.mp h2 with h | ⟨h, _⟩ <;>
      simp only [FileText.endpos] at h <;> omega
  rcases FilePos.le_def.mp h1 with h | ⟨h, hc⟩
  · have hcb : t.colBase p.lineno = 1 := by
      simp only [FileText.colBase]
      rw [if_neg (by omega)]
    exact ⟨by omega, by omega, by omega, by rw [hcb]; omega⟩
  · -- same line as the anchor, column 1: the anchor column must be exactly 1.
    have hc1 : t.startpos.colno = 1 := by omega
    have hcb : t.colBase p.lineno = 1 := by
      simp only [FileText.colBase]
      rw [if_pos h.symm, hc1]
    exact ⟨by omega, by omega, by omega, by rw [hcb]; omega⟩

/-! ### Tiling of the splitter output (claim C1) -/

/-- The chunks `cs` exactly tile the range from `p` to `q`: each chunk starts
where the previous stopped, the first starts at `p` and the last stops at
`q`. -/
def chainHolds : FilePos → List Chunk → FilePos → Prop
  | p, [], q => p = q
  | p, c :: cs, q => c.start = p ∧ chainHolds c.stop cs q

instance : ∀ (p : FilePos) (cs : List Chunk) (q : FilePos), Decidable (chainHolds p cs q)
  | _, [], _ => by unfold chainHolds; infer_instance
  | p, c :: cs, q => by
    unfold chainHolds
    have := instDecidableChainHolds c.stop cs q
    infer_instance

theorem chain_le {q : FilePos} : ∀ {cs : List Chunk} {p : FilePos},
    chainHolds p cs q → (∀ c ∈ cs, c.start ≤ c.stop) → p ≤ q := by
  intro cs
  induction cs with
  | nil => intro p h _; exact le_of_eq h
  | cons c cs ih =>
    intro p h hle
    obtain ⟨h1, h2⟩ := h
    have := ih h2 (fun c hc => hle c (by simp [hc]))
    have hc := hle c (by simp)
    calc p = c.start := h1.symm
      _ ≤ c.stop := hc
      _ ≤ q := this

theorem chain_bounds {q : FilePos} : ∀ {cs : List Chunk} {p : FilePos},
    chainHolds p cs q → (∀ c ∈ cs, c.start ≤ c.stop) →
    ∀ c ∈ cs, p ≤ c.start ∧ c.stop ≤ q := by
  intro cs
  induction cs with
  | nil => intro p _ _ c hc; simp at hc
  | cons c0 cs ih =>
    intro p h hle c hc
    obtain ⟨h1, h2⟩ := h
    have hrest := ih h2 (fun c hc => hle c (by simp [hc]))
    rcases List.mem_cons.mp hc with rfl | hmem
    · refine ⟨le_of_eq h1.symm, chain_le h2 (fun c hc => hle c (by simp [hc]))⟩
    · obtain ⟨ha, hb⟩ := hrest c hmem
      have hc0 := hle c0 (by simp)
      exact ⟨le_trans (le_of_eq h1.symm) (le_trans hc0 ha), hb⟩

theorem chain_render (t : FileText) {q : FilePos} (hq : t.ValidPos q) :
    ∀ (cs : List Chunk) (p : FilePos),
    chainHolds p cs q → (∀ c ∈ cs, c.start ≤ c.stop) →
    (∀ c ∈ cs, t.ValidPos c.start ∧ t.ValidPos c.stop) →
    (cs.map fun c => (t.slice c.start c.stop).content).flatten
      = (t.slice p q).content := by
  intro cs
  induction cs with
  | nil =>
    intro p h _ _
    subst h
    simp [FileText.slice]
  | cons c cs ih =>
    intro p h hle hv
    obtain ⟨h1, h2⟩ := h
    subst h1
    have ihr := ih c.stop h2 (fun c hc => hle c (by simp [hc]))
      (fun c hc => hv c (by simp [hc]))
    simp only [List.map_cons, List.flatten_cons, ihr]
    obtain ⟨hvs, hve⟩ := hv c (by simp)
    have h1 : t.off c.start ≤ t.off c.stop :=
      t.off_mono hvs (hle c (by simp)) hve.1
    have h2' : t.off c.stop ≤ t.off q :=
      t.off_mono hve (chain_le h2 (fun c hc => hle c (by simp [hc]))) hq.1
    simp only [FileText.slice]
    exact take_drop_take_append t.content h1 h2'

theorem chain_append {p m q : FilePos} :
    ∀ {A B : List Chunk}, chainHolds p A m → chainHolds m B q →
      chainHolds p (A ++ B) q := by
  intro A
  induction A generalizing p with
  | nil => intro B h1 h2; rw [show p = m from h1]; simpa using h2
  | cons c A ih =>
    intro B h1 h2
    obtain ⟨ha, hb⟩ := h1
    exact ⟨ha, ih hb h2⟩

/-- Boundary positions produced by the splitter: the span's endpoints, a
column-1 position, or a position attached to one of the nodes. -/
def InShapes (t : FileText) (ns : List SplitNode) (p : FilePos) : Prop :=
  p = t.startpos ∨ p = t.endpos ∨ p.colno = 1 ∨
    ∃ n ∈ ns, p = n.startpos ∨ n.endpos = some p

theorem InShapes.mono {t : FileText} {ns ns' : List SplitNode} {p : FilePos}
    (hsub : ∀ x ∈ ns, x ∈ ns') : InShapes t ns p → InShapes t ns' p := by
  rintro (h | h | h | ⟨n, hn, hp⟩)
  · exact Or.inl h
  · exact Or.inr (Or.inl h)
  · exact Or.inr (Or.inr (Or.inl h))
  · exact Or.inr (Or.inr (Or.inr ⟨n, hsub n hn, hp⟩))

theorem splitStep1_shape {t : FileText} {node : SplitNode} {e0 e1 : FilePos}
    (h : splitStep1 t node e0 = some e1) : e1 = e0 ∨ e1 = ⟨e0.lineno, 1⟩ := by
  unfold splitStep1 at h
  split at h
  · split at h
    · split at h
      · split at h
        · split at h <;> simp_all
        · simp_all
      · simp_all
    · simp_all
  · simp_all

theorem computeEndpos_shape {t : FileText} {node : SplitNode} {nextStart e : FilePos}
    (h : computeEndpos t node nextStart = some e) :
    e.colno = 1 ∨ node.endpos = some e ∨ e = nextStart := by
  unfold computeEndpos at h
  split at h
  · rename_i e0 he0
    split at h
    · split at h
      · rw [Option.some_inj] at h
        subst h
        left
        rfl
      · rw [Option.some_inj] at h
        subst h
        exact Or.inr (Or.inl he0)
    · simp_all
  · split at h
    · rw [Option.map_eq_some'] at h
      obtain ⟨e1, he1, rfl⟩ := h
      split
      · simp
      · rcases splitStep1_shape he1 with rfl | rfl
        · simp
        · simp_all
    · simp_all

theorem splitStep_spec {t : FileText} {node : SplitNode} {nextStart : FilePos}
    {cs1 : List Chunk} (h : splitStep t node nextStart = some cs1) :
    chainHolds node.startpos cs1 nextStart ∧
    cs1.flatMap Chunk.nodes = [node] ∧
    (∀ c ∈ cs1, c.start < c.stop) := by
  unfold splitStep at h
  split at h
  · rename_i hlt
    split at h
    · simp_all
    · rename_i e he
      split at h
      · rename_i hee
        obtain ⟨he1, he2⟩ := hee
        rw [Option.some_inj] at h
        subst h
        by_cases hne : e ≠ nextStart
        · rw [if_pos hne]
          refine ⟨⟨rfl, rfl, rfl⟩, by simp [Chunk.nodes], ?_⟩
          intro c hc
          rcases List.mem_cons.mp hc with rfl | hc
          · exact he1
          · rcases List.mem_cons.mp hc with rfl | hc
            · exact lt_of_le_of_ne he2 hne
            · simp at hc
        · rw [if_neg hne]
          push_neg at hne
          subst hne
          exact ⟨⟨rfl, rfl⟩, by simp [Chunk.nodes], by
            intro c hc
            rcases List.mem_cons.mp hc with rfl | hc
            · exact he1
            · simp at hc⟩
      · simp_all
  · simp_all

theorem splitStep_shapes {t : FileText} {node : SplitNode} {nextStart : FilePos}
    {cs1 : List Chunk} {NS : List SplitNode} (h : splitStep t node nextStart = some cs1)
    (hnode : node ∈ NS) (hnext : InShapes t NS nextStart) :
    ∀ c ∈ cs1, InShapes t NS c.start ∧ InShapes t NS c.stop := by
  have hstart : InShapes t NS node.startpos :=
    Or.inr (Or.inr (Or.inr ⟨node, hnode, Or.inl rfl⟩))
  unfold splitStep at h
  split at h
  · split at h
    · simp_all
    · rename_i e he
      have hE : InShapes t NS e := by
        rcases computeEndpos_shape he with h1 | h1 | h1
        · exact Or.inr (Or.inr (Or.inl h1))
        · exact Or.inr (Or.inr (Or.inr ⟨node, hnode, Or.inr h1⟩))
        · exact h1 ▸ hnext
      split at h
      · rw [Option.some_inj] at h
        subst h
        intro c hc
        rcases List.mem_cons.mp hc with rfl | hc
        · exact ⟨hstart, hE⟩
        · split at hc
          · rcases List.mem_cons.mp hc with rfl | hc
            · exact ⟨hE, hnext⟩
            · simp at hc
          · simp at hc
      · simp_all
  · simp_all

theorem splitLoop_spec (t : FileText) :
    ∀ (rest : List SplitNode) (node : SplitNode) (cs : List Chunk),
    splitLoop t node rest = some cs →
    chainHolds node.startpos cs t.endpos ∧
    cs.flatMap Chunk.nodes = node :: rest ∧
    (∀ c ∈ cs, c.start < c.stop) := by
  intro rest
  induction rest with
  | nil =>
    intro node cs h
    rw [splitLoop] at h
    obtain ⟨h1, h2, h3⟩ := splitStep_spec h
    exact ⟨h1, by simpa using h2, h3⟩
  | cons n rest ih =>
    intro node cs h
    rw [splitLoop] at h
    split at h
    · simp at h
    · rename_i cs1 hcs1
      rw [Option.map_eq_some'] at h
      obtain ⟨cs2, hcs2, rfl⟩ := h
      obtain ⟨h1, h2, h3⟩ := splitStep_spec hcs1
      obtain ⟨g1, g2, g3⟩ := ih n cs2 hcs2
      refine ⟨chain_append h1 g1, ?_, ?_⟩
      · rw [List.flatMap_append, h2, g2]
        simp
      · intro c hc
        rcases List.mem_append.mp hc with hc | hc
        · exact h3 c hc
        · exact g3 c hc

theorem splitLoop_shapes (t : FileText) :
    ∀ (rest : List SplitNode) (node : SplitNode) (cs : List Chunk)
      (NS : List SplitNode),
    splitLoop t node rest = some cs → (∀ x ∈ node :: rest, x ∈ NS) →
    ∀ c ∈ cs, InShapes t NS c.start ∧ InShapes t NS c.stop := by
  intro rest
  induction rest with
  | nil =>
    intro node cs NS h hsub
    rw [splitLoop] at h
    exact splitStep_shapes h (hsub node (by simp)) (Or.inr (Or.inl rfl))
  | cons n rest ih =>
    intro node cs NS h hsub
    rw [splitLoop] at h
    split at h
    · simp at h
    · rename_i cs1 hcs1
      rw [Option.map_eq_some'] at h
      obtain ⟨cs2, hcs2, rfl⟩ := h
      have hnext : InShapes t NS n.startpos :=
        Or.inr (Or.inr (Or.inr ⟨n, hsub n (by simp), Or.inl rfl⟩))
      intro c hc
      rcases List.mem_append.mp hc with hc | hc
      · exact splitStep_shapes hcs1 (hsub node (by simp)) hnext c hc
      · exact ih n cs2 NS hcs2 (fun x hx => hsub x (by
          rcases List.mem_cons.mp hx with rfl | hx
          · simp
          · simp [hx])) c hc

theorem split_code_lines_spec {nodes : List SplitNode} {t : FileText}
    {cs : List Chunk} (h : split_code_lines nodes t = some cs) :
    chainHolds t.startpos cs t.endpos ∧
    cs.flatMap Chunk.nodes = nodes ∧
    (nodes ≠ [] → ∀ c ∈ cs, c.start < c.stop) ∧
    (∀ c ∈ cs, InShapes t nodes c.start ∧ InShapes t nodes c.stop) := by
  match nodes with
  | [] =>
    rw [split_code_lines, Option.some_inj] at h
    subst h
    refine ⟨⟨rfl, rfl⟩, by simp [Chunk.nodes], by simp, ?_⟩
    intro c hc
    rcases List.mem_cons.mp hc with rfl | hc
    · exact ⟨Or.inl rfl, Or.inr (Or.inl rfl)⟩
    · simp at hc
  | n :: rest =>
    rw [split_code_lines] at h
    split at h
    · rename_i hguard
      rw [Option.map_eq_some'] at h
      obtain ⟨cs2, hcs2, rfl⟩ := h
      obtain ⟨h1, h2, h3⟩ := splitLoop_spec t rest n cs2 hcs2
      have hshapes := splitLoop_shapes t rest n cs2 (n :: rest) hcs2 (fun x hx => hx)
      by_cases hne : t.startpos ≠ n.startpos
      · rw [if_pos hne]
        refine ⟨chain_append (p := t.startpos) (m := n.startpos) ⟨rfl, rfl⟩ h1,
          by simpa [Chunk.nodes] using h2, ?_, ?_⟩
        · intro _ c hc
          rcases List.mem_cons.mp hc with rfl | hc
          · exact lt_of_le_of_ne hguard.1 hne
          · exact h3 c hc
        · intro c hc
          rcases List.mem_cons.mp hc with rfl | hc
          · exact ⟨Or.inl rfl, Or.inr (Or.inr (Or.inr ⟨n, by simp, Or.inl rfl⟩))⟩
          · exact hshapes c hc
      · rw [if_neg hne]
        push_neg at hne
        rw [List.nil_append]
        exact ⟨hne ▸ h1, h2, fun _ => h3, hshapes⟩
    · simp at h

/-- C1 (counterexample): the claim "chunk boundaries strictly increase" fails
on a block with empty text (which parses successfully to an empty module):
`_split_code_lines([], text)` yields a single chunk whose start and stop
boundary coincide, so the boundary sequence does not strictly increase. -/
theorem C1_counterexample :
    split_code_lines [] ⟨⟨1, 1⟩, []⟩ = some [⟨[], ⟨1, 1⟩, ⟨1, 1⟩⟩] ∧
    ¬ ((⟨[], ⟨1, 1⟩, ⟨1, 1⟩⟩ : Chunk).start < (⟨[], ⟨1, 1⟩, ⟨1, 1⟩⟩ : Chunk).stop) := by
  constructor
  · decide
  · exact lt_irrefl _

/-- C1 (amended): for every block whose text parses successfully (modelled:
whenever the splitter succeeds, i.e. no internal assertion fails), the
emitted chunks tile the original span exactly (each chunk starts where the
previous stopped, from `text.startpos` to `text.endpos`), each top-level node
appears in exactly one chunk (in order), chunk boundaries strictly increase
provided the block is nonempty (has a node or nonempty text; an empty block
yields a single empty chunk), and concatenating the text of the chunks in
order reconstructs the block's original text exactly. -/
theorem C1_amended {nodes : List SplitNode} {t : FileText} {cs : List Chunk}
    (h : split_code_lines nodes t = some cs)
    (hanchor : 1 ≤ t.startpos.colno)
    (hvalid : ∀ n ∈ nodes, t.ValidPos n.startpos ∧
      ∀ e, n.endpos = some e → t.ValidPos e) :
    chainHolds t.startpos cs t.endpos ∧
    cs.flatMap Chunk.nodes = nodes ∧
    ((nodes ≠ [] ∨ t.startpos < t.endpos) → ∀ c ∈ cs, c.start < c.stop) ∧
    (cs.map fun c => (t.slice c.start c.stop).content).flatten = t.content := by
  obtain ⟨hchain, hflat, hstrict, hshapes⟩ := split_code_lines_spec h
  have hle : ∀ c ∈ cs, c.start ≤ c.stop := by
    by_cases hn : nodes = []
    · subst hn
      rw [split_code_lines, Option.some_inj] at h
      subst h
      intro c hc
      rcases List.mem_cons.mp hc with rfl | hc'
      · exact t.startpos_le_endpos
      · simp at hc'
    · intro c hc
      exact le_of_lt (hstrict hn c hc)
  have hbounds := chain_bounds hchain hle
  have valids : ∀ p, InShapes t nodes p → t.startpos ≤ p → p ≤ t.endpos →
      t.ValidPos p := by
    rintro p (rfl | rfl | hcol | ⟨n, hn, hp | hp⟩) h1 h2
    · exact t.valid_startpos
    · exact t.valid_endpos
    · exact t.valid_of_col1 hanchor h1 h2 hcol
    · exact hp ▸ (hvalid n hn).1
    · exact (hvalid n hn).2 p hp
  have hvalidB : ∀ c ∈ cs, t.ValidPos c.start ∧ t.ValidPos c.stop := by
    intro c hc
    obtain ⟨hs1, hs2⟩ := hshapes c hc
    obtain ⟨hb1, hb2⟩ := hbounds c hc
    have hss := hle c hc
    exact ⟨valids _ hs1 hb1 (le_trans hss hb2),
           valids _ hs2 (le_trans hb1 hss) hb2⟩
  refine ⟨hchain, hflat, ?_, ?_⟩
  · intro hor c hc
    by_cases hn : nodes = []
    · subst hn
      rw [split_code_lines, Option.some_inj] at h
      subst h
      rcases hor with hne | hlt
      · exact absurd rfl hne
      · rcases List.mem_cons.mp hc with rfl | hc'
        · exact hlt
        · simp at hc'
    · exact hstrict hn c hc
  · rw [chain_render t t.valid_endpos cs t.startpos hchain hle hvalidB]
    show (t.content.drop (t.off t.startpos)).take (t.off t.endpos - t.off t.startpos)
      = t.content
    rw [t.off_startpos, t.off_endpos]
    simp

/-- Concrete input for the C1 witness: the spec §8 scenario text. -/
def c1T : FileText :=
  ⟨⟨1, 1⟩, ("# 1\nprint 2\n# 3\n# 4\nprint 5\nx=[6,\n 7]\n# 8\n").toList⟩

def c1N : List SplitNode := [⟨⟨2, 1⟩, none⟩, ⟨⟨5, 1⟩, none⟩, ⟨⟨6, 1⟩, none⟩]

def c1CS : List Chunk :=
  [⟨[], ⟨1, 1⟩, ⟨2, 1⟩⟩, ⟨[⟨⟨2, 1⟩, none⟩], ⟨2, 1⟩, ⟨3, 1⟩⟩,
   ⟨[], ⟨3, 1⟩, ⟨5, 1⟩⟩, ⟨[⟨⟨5, 1⟩, none⟩], ⟨5, 1⟩, ⟨6, 1⟩⟩,
   ⟨[⟨⟨6, 1⟩, none⟩], ⟨6, 1⟩, ⟨8, 1⟩⟩, ⟨[], ⟨8, 1⟩, ⟨9, 1⟩⟩]

/-- C1 (witness): the amended theorem applied to the spec §8 six-chunk
scenario. -/
theorem C1_witness :
    chainHolds c1T.startpos c1CS c1T.endpos ∧
    c1CS.flatMap Chunk.nodes = c1N ∧
    (∀ c ∈ c1CS, c.start < c.stop) ∧
    (c1CS.map fun c => (c1T.slice c.start c.stop).content).flatten = c1T.content := by
  have h : split_code_lines c1N c1T = some c1CS := by decide
  obtain ⟨h1, h2, h3, h4⟩ := C1_amended h (by decide) (by
    intro n hn
    refine ⟨?_, ?_⟩
    · fin_cases hn <;> decide
    · intro e he
      fin_cases hn <;> simp at he)
  exact ⟨h1, h2, h3 (Or.inl (by simp [c1N])), h4⟩

/-! ### Claim C6: the backward walk of the splitter -/

/-- The backward-walk rule in the words of the claim/spec (§4.3): walk the
boundary backward one line at a time exactly while the preceding line exists
and is comment-or-blank and the line before that does not end in a backslash
continuation marker.  (This is the claim-side definition, to be compared with
the code's `walkBack`, which carries an extra stop guard at the node's own
start line.) -/
def specWalkBackAux (t : FileText) : Nat → Nat → Nat
  | 0, l => l
  | fuel + 1, l =>
    if decide (1 < l) && is_comment_or_blank (t.getLine (l - 1)) &&
        ! endsWithBackslash (t.getLine (l - 2)) then
      specWalkBackAux t fuel (l - 1)
    else l

def specWalkBack (t : FileText) (l : Nat) : Nat := specWalkBackAux t l l

theorem walkBackAux_eq_spec (t : FileText) (sline : Nat) (h1 : 1 ≤ sline)
    (hstart : is_comment_or_blank (t.getLine sline) = false) :
    ∀ fuel l, sline < l → walkBackAux t sline fuel l = specWalkBackAux t fuel l := by
  intro fuel
  induction fuel with
  | zero => intro l _; rfl
  | succ fuel ih =>
    intro l hl
    rw [walkBackAux, specWalkBackAux]
    by_cases hcase : l = sline + 1
    · subst hcase
      rw [if_neg, if_neg]
      · have : sline + 1 - 1 = sline := by omega
        rw [this, hstart]
        simp
      · simp
    · have hgt : sline + 1 < l := by omega
      have h1l : 1 < l := by omega
      cases hX : is_comment_or_blank (t.getLine (l - 1))
      · simp [hX]
      · cases hY : endsWithBackslash (t.getLine (l - 2))
        · simp only [hX, hY, hgt, h1l, decide_true_eq_true, decide_eq_true_eq,
            Bool.not_false, Bool.and_true, Bool.true_and, if_true, if_pos]
          exact ih (l - 1) (by omega)
        · simp [hX, hY]

theorem walkBack_eq_spec (t : FileText) {sline l : Nat} (h1 : 1 ≤ sline)
    (hstart : is_comment_or_blank (t.getLine sline) = false) (hl : sline < l) :
    walkBack t sline l = specWalkBack t l :=
  walkBackAux_eq_spec t sline h1 hstart l l hl

/-- C6: in the splitter, for every node without an explicit end position whose
provisional boundary (`nextStart`) falls at the start of a line, the boundary
is walked backward one line at a time exactly while the preceding line is
comment-or-blank and the line before that does not end in a backslash
continuation marker (the code's extra guard at the node's own start line
coincides with this rule because the line holding the node's start is never
comment-or-blank); and when the boundary is not at the start of a line and is
not at the end of the text, the boundary is left untouched. -/
theorem C6_backward_walk {t : FileText} {node : SplitNode} {nextStart e : FilePos}
    (hnoend : node.endpos = none) :
    ((nextStart.colno = 1) →
      computeEndpos t node nextStart = some e →
      is_comment_or_blank (t.getLine node.startpos.lineno) = false →
      1 ≤ node.startpos.lineno →
      1 ≤ node.startpos.colno →
      node.startpos < nextStart →
      e = ⟨specWalkBack t nextStart.lineno, 1⟩) ∧
    ((nextStart.colno ≠ 1) → nextStart ≠ t.endpos →
      computeEndpos t node nextStart = some e → e = nextStart) := by
  constructor
  · intro hcol h hstart hsl hsc hlt
    simp only [computeEndpos, hnoend] at h
    split at h
    · have hs1 : splitStep1 t node nextStart = some nextStart := by
        rw [splitStep1, if_neg (by simp [hcol])]
      rw [hs1, Option.map_some', Option.some_inj, if_pos hcol] at h
      have hlineno : node.startpos.lineno < nextStart.lineno := by
        rcases FilePos.lt_def.mp hlt with h' | ⟨_, h'⟩
        · exact h'
        · omega
      rw [walkBack_eq_spec t hsl hstart hlineno] at h
      exact h.symm
    · simp at h
  · intro hcol hend h
    simp only [computeEndpos, hnoend] at h
    split at h
    · have hs1 : splitStep1 t node nextStart = some nextStart := by
        rw [splitStep1, if_pos hcol, if_neg hend]
      rw [hs1, Option.map_some', Option.some_inj, if_neg hcol] at h
      exact h.symm
    · simp at h

/-- C6 (witness): the theorem applied to the spec §8 scenario (the boundary
before `print 5` walks back over the comment lines `# 3`, `# 4` to line 3)
and to two statements sharing one line (mid-line boundary left untouched). -/
theorem C6_witness :
    (⟨3, 1⟩ : FilePos) = ⟨specWalkBack c1T 5, 1⟩ ∧
    (⟨1, 5⟩ : FilePos) = ⟨1, 5⟩ := by
  have h := @C6_backward_walk c1T ⟨⟨2, 1⟩, none⟩ ⟨5, 1⟩ ⟨3, 1⟩ rfl
  refine ⟨h.1 rfl (by decide) (by decide) (by decide) (by decide) (by decide), ?_⟩
  have h2 := @C6_backward_walk ⟨⟨1, 1⟩, ("x=1;y=2\n").toList⟩
    ⟨⟨1, 1⟩, none⟩ ⟨1, 5⟩ ⟨1, 5⟩ rfl
  exact h2.2 (by decide) (by decide) (by decide)

/-! ### The bounded search for an ambiguous string literal's span
(`_annotate_ast_startpos`, lines 307–402)

`_test_parse_string_literal` (lines 141–157) invokes the external CPython
parser; it is modelled as an oracle `parseLit : List Char → Option (List
Char)` mapping the exact candidate substring to the value of the single
string literal it parses to, or `none` on failure. -/

def Oracle : Type := List Char → Option (List Char)

def quoteDouble : Char := Char.ofNat 34

def quoteSingle : Char := Char.ofNat 39

/-- A quote character, the character class of the regex `["']`. -/
def isQuote (c : Char) : Bool := c = quoteDouble || c = quoteSingle

/-- Three single-quote characters, the opening/closing of a multiline
literal. -/
def tripleQuote : List Char := [quoteSingle, quoteSingle, quoteSingle]

/-- A string-prefix letter, the character class of the regex `[bBrRuU]`. -/
def isPrefixLetter (c : Char) : Bool :=
  c = 'b' || c = 'B' || c = 'r' || c = 'R' || c = 'u' || c = 'U'

/-- Length of the maximal leading run of string-prefix letters. -/
def runLen : List Char → Nat
  | [] => 0
  | c :: cs => if isPrefixLetter c then runLen cs + 1 else 0

/-- The matches of `re.finditer("[bBrRuU]*[\"']", line)`: each yielded pair is
the 0-based index of the match start plus the quote character ending the
match.  At each scan position the maximal prefix-letter run must be followed
by a quote; otherwise no match can start before the run's end, so the scan
resumes after it. -/
def scanOpensAux (fuel : Nat) (s : List Char) (i : Nat) : List (Nat × Char) :=
  match fuel with
  | 0 => []
  | fuel + 1 =>
    match s with
    | [] => []
    | _ :: _ =>
      let m := runLen s
      match s.drop m with
      | [] => []
      | q :: rest =>
        if isQuote q then (i, q) :: scanOpensAux fuel rest (i + m + 1)
        else scanOpensAux fuel rest (i + m + 1)

def scanOpens (s : List Char) : List (Nat × Char) := scanOpensAux s.length s 0

/-- The matches of `re.finditer("[\"']", line)`: 0-based indices of all quote
characters, with the character, in increasing order. -/
def closeScan : List Char → Nat → List (Char × Nat)
  | [], _ => []
  | c :: cs, i =>
    if isQuote c then (c, i) :: closeScan cs (i + 1) else closeScan cs (i + 1)

/-- Lines 311–319: candidate open positions — every prefix-letter-plus-quote
occurrence on every line from the lower bound's line through the reported end
line, as `(quote char, position of the match start)`. -/
def openCandidates (t : FileText) (minLineno fe : Nat) : List (Char × FilePos) :=
  (List.range' minLineno (fe + 1 - minLineno)).flatMap fun L =>
    (scanOpens (t.getLine L)).map fun m => (m.2, ⟨L, m.1 + t.colBase L⟩)

/-- Lines 342–347: candidate close positions on one end line — every quote
occurrence, as `(quote char, position one past the quote)`. -/
def closeCandidates (t : FileText) (L : Nat) : List (Char × FilePos) :=
  (closeScan (t.getLine L) 0).map fun m => (m.1, ⟨L, m.2 + t.colBase L + 1⟩)

/-- A candidate `(open, close)` pair, remembering both quote characters (the
code keeps only the positions; the characters are carried here so that the
ordering properties can be stated). -/
structure PairCand where
  sq : Char
  spos : FilePos
  eq : Char
  epos : FilePos
deriving DecidableEq, Repr

/-- Lines 356–371, the `likely_candidates` list: close candidates in reverse
(decreasing) order, each paired with every open candidate strictly before it
carrying the same quote character. -/
def likelyPairs (opens closes : List (Char × FilePos)) : List PairCand :=
  closes.reverse.flatMap fun ce =>
    opens.filterMap fun oc =>
      if oc.2 < ce.2 ∧ oc.1 = ce.1 then some ⟨oc.1, oc.2, ce.1, ce.2⟩ else none

/-- Lines 356–371, the `unlikely_candidates` list: as `likelyPairs` but for
mismatched quote characters (adjacent concatenation with different quote
styles). -/
def unlikelyPairs (opens closes : List (Char × FilePos)) : List PairCand :=
  closes.reverse.flatMap fun ce =>
    opens.filterMap fun oc =>
      if oc.2 < ce.2 ∧ oc.1 ≠ ce.1 then some ⟨oc.1, oc.2, ce.1, ce.2⟩ else none

/-- Line 374: all candidate pairs in try order — matching-quote pairs first. -/
def buildPairs (opens closes : List (Char × FilePos)) : List PairCand :=
  likelyPairs opens closes ++ unlikelyPairs opens closes

/-- Lines 373–389: try the pairs in order.  Returns the recorded `(startpos,
endpos)` of the first exact match (if any) together with the `matched_prefix`
open positions collected so far (meaningful when no match was found: the
opens whose parsed value was a strict prefix of the target). -/
def tryPairs (o : Oracle) (t : FileText) (target : List Char) :
    List PairCand → Option (FilePos × FilePos) × List FilePos
  | [] => (none, [])
  | q :: rest =>
    match o ((t.slice q.spos q.epos).content) with
    | none => tryPairs o t target rest
    | some v =>
      if v = target then (some (q.spos, q.epos), [])
      else if v.isPrefixOf target then
        let r := tryPairs o t target rest
        (r.1, q.spos :: r.2)
      else tryPairs o t target rest

inductive SearchErr where
  | assertMinpos
  | noQuoteChar
  | notFound
deriving DecidableEq, Repr

/-- Lines 337–402: the loop over candidate end lines.  `fe` is the parser's
reported (first) end line; an end line with no quote character other than the
first is skipped with the open-candidate set unchanged; otherwise the pairs
are tried, and on failure the open candidates are narrowed to those whose
parsed value was a strict prefix of the target (`break`, like exhausting the
lines, reaches the `ValueError` of line 400). -/
def searchLoop (o : Oracle) (t : FileText) (target : List Char) (fe : Nat) :
    List Nat → List (Char × FilePos) → Except SearchErr (FilePos × FilePos)
  | [], _ => .error .notFound
  | L :: rest, opens =>
    let closes := closeCandidates t L
    if closes.isEmpty then
      if L = fe then .error .noQuoteChar
      else searchLoop o t target fe rest opens
    else
      match tryPairs o t target (buildPairs opens closes) with
      | (some p, _) => .ok p
      | (none, mp) =>
        if mp.isEmpty then .error .notFound
        else searchLoop o t target fe rest
          (opens.filter fun oc => decide (oc.2 ∈ mp))

/-- The end lines enumerated by the loop of line 337:
`xrange(first_end_lineno, text.endpos.lineno + 1)`. -/
def endLineEnumeration (t : FileText) (fe : Nat) : List Nat :=
  List.range' fe (t.endpos.lineno + 1 - fe)

/-- Lines 307–402: the bounded search proper.  `nodeLineno` is the parser's
reported `lineno` of the string node; the first candidate end line is
`text.startpos.lineno + lineno - 1`, and the assertion of line 312 requires
the lower bound's line not to exceed it. -/
def annotate_ast_startpos_search (o : Oracle) (t : FileText) (minpos : FilePos)
    (nodeLineno : Nat) (target : List Char) : Except SearchErr (FilePos × FilePos) :=
  let fe := t.startpos.lineno + nodeLineno - 1
  if minpos.lineno ≤ fe then
    searchLoop o t target fe (endLineEnumeration t fe) (openCandidates t minpos.lineno fe)
  else .error .assertMinpos

/-! ### Properties of the bounded search (claims C2 and C3) -/

theorem mem_likelyPairs {opens closes : List (Char × FilePos)} {q : PairCand}
    (h : q ∈ likelyPairs opens closes) :
    q.spos < q.epos ∧ q.sq = q.eq ∧ q.epos ∈ closes.map Prod.snd := by
  simp only [likelyPairs, List.mem_flatMap, List.mem_filterMap] at h
  obtain ⟨ce, hce, oc, hoc, hif⟩ := h
  split at hif
  · rename_i hcond
    rw [Option.some_inj] at hif
    subst hif
    exact ⟨hcond.1, hcond.2, by
      simp only [List.mem_map]
      exact ⟨ce, List.mem_reverse.mp hce, rfl⟩⟩
  · exact absurd hif (by simp)

theorem mem_unlikelyPairs {opens closes : List (Char × FilePos)} {q : PairCand}
    (h : q ∈ unlikelyPairs opens closes) :
    q.spos < q.epos ∧ q.sq ≠ q.eq ∧ q.epos ∈ closes.map Prod.snd := by
  simp only [unlikelyPairs, List.mem_flatMap, List.mem_filterMap] at h
  obtain ⟨ce, hce, oc, hoc, hif⟩ := h
  split at hif
  · rename_i hcond
    rw [Option.some_inj] at hif
    subst hif
    exact ⟨hcond.1, hcond.2, by
      simp only [List.mem_map]
      exact ⟨ce, List.mem_reverse.mp hce, rfl⟩⟩
  · exact absurd hif (by simp)

theorem buildPairs_open_lt_close {opens closes : List (Char × FilePos)} {q : PairCand}
    (h : q ∈ buildPairs opens closes) : q.spos < q.epos := by
  rcases List.mem_append.mp h with h | h
  · exact (mem_likelyPairs h).1
  · exact (mem_unlikelyPairs h).1

theorem buildPairs_classes (opens closes : List (Char × FilePos)) :
    buildPairs opens closes
      = (buildPairs opens closes).filter (fun q => decide (q.sq = q.eq)) ++
        (buildPairs opens closes).filter (fun q => ! decide (q.sq = q.eq)) := by
  unfold buildPairs
  rw [List.filter_append, List.filter_append]
  have h1 : (likelyPairs opens closes).filter (fun q => decide (q.sq = q.eq))
      = likelyPairs opens closes :=
    List.filter_eq_self.mpr fun q hq => by simp [(mem_likelyPairs hq).2.1]
  have h2 : (unlikelyPairs opens closes).filter (fun q => decide (q.sq = q.eq)) = [] :=
    List.filter_eq_nil_iff.mpr fun q hq => by simp [(mem_unlikelyPairs hq).2.1]
  have h3 : (likelyPairs opens closes).filter (fun q => ! decide (q.sq = q.eq)) = [] :=
    List.filter_eq_nil_iff.mpr fun q hq => by simp [(mem_likelyPairs hq).2.1]
  have h4 : (unlikelyPairs opens closes).filter (fun q => ! decide (q.sq = q.eq))
      = unlikelyPairs opens closes :=
    List.filter_eq_self.mpr fun q hq => by simp [(mem_unlikelyPairs hq).2.1]
  rw [h1, h2, h3, h4, List.append_nil, List.nil_append]

theorem pairwise_le_of_const {l : List PairCand} {v : FilePos}
    (h : ∀ q ∈ l, q.epos = v) : l.Pairwise fun a b => b.epos ≤ a.epos := by
  induction l with
  | nil => simp
  | cons a l ih =>
    rw [List.pairwise_cons]
    refine ⟨fun b hb => ?_, ih fun q hq => h q (by simp [hq])⟩
    rw [h b (by simp [hb]), h a (by simp)]

theorem pairwise_flatMap_desc {closes' : List (Char × FilePos)}
    (f : (Char × FilePos) → List PairCand)
    (hf : ∀ ce q, q ∈ f ce → q.epos = ce.2)
    (hP : closes'.Pairwise fun a b => b.2 < a.2) :
    (closes'.flatMap f).Pairwise fun a b => b.epos ≤ a.epos := by
  induction closes' with
  | nil => simp
  | cons ce rest ih =>
    rw [List.flatMap_cons, List.pairwise_append]
    rw [List.pairwise_cons] at hP
    refine ⟨pairwise_le_of_const (hf ce), ih hP.2, ?_⟩
    intro a ha b hb
    rw [List.mem_flatMap] at hb
    obtain ⟨ce', hce', hb⟩ := hb
    rw [hf ce a ha, hf ce' b hb]
    exact le_of_lt (hP.1 ce' hce')

theorem closeScan_bound : ∀ (s : List Char) (i : Nat) (m : Char × Nat),
    m ∈ closeScan s i → i ≤ m.2 := by
  intro s
  induction s with
  | nil => intro i m h; simp [closeScan] at h
  | cons c cs ih =>
    intro i m h
    rw [closeScan] at h
    split at h
    · rcases List.mem_cons.mp h with rfl | h
      · exact le_refl _
      · exact le_of_lt (lt_of_lt_of_le (Nat.lt_succ_self i) (ih (i + 1) m h))
    · exact le_of_lt (lt_of_lt_of_le (Nat.lt_succ_self i) (ih (i + 1) m h))

theorem closeScan_pairwise : ∀ (s : List Char) (i : Nat),
    (closeScan s i).Pairwise fun a b => a.2 < b.2 := by
  intro s
  induction s with
  | nil => intro i; simp [closeScan]
  | cons c cs ih =>
    intro i
    rw [closeScan]
    split
    · rw [List.pairwise_cons]
      exact ⟨fun m hm => lt_of_lt_of_le (Nat.lt_succ_self i) (closeScan_bound cs (i + 1) m hm),
        ih (i + 1)⟩
    · exact ih (i + 1)

theorem closeCandidates_pairwise (t : FileText) (L : Nat) :
    (closeCandidates t L).Pairwise fun a b => a.2 < b.2 := by
  refine (closeScan_pairwise (t.getLine L) 0).map _ ?_
  intro a b hab
  rw [FilePos.lt_def]
  dsimp only
  right
  exact ⟨rfl, by omega⟩

theorem likelyPairs_desc (t : FileText) (L : Nat) (opens : List (Char × FilePos)) :
    (likelyPairs opens (closeCandidates t L)).Pairwise fun a b => b.epos ≤ a.epos := by
  apply pairwise_flatMap_desc
  · intro ce q hq
    simp only [List.mem_filterMap] at hq
    obtain ⟨oc, _, hif⟩ := hq
    split at hif
    · rw [Option.some_inj] at hif
      subst hif
      rfl
    · exact absurd hif (by simp)
  · rw [List.pairwise_reverse]
    exact closeCandidates_pairwise t L

theorem unlikelyPairs_desc (t : FileText) (L : Nat) (opens : List (Char × FilePos)) :
    (unlikelyPairs opens (closeCandidates t L)).Pairwise fun a b => b.epos ≤ a.epos := by
  apply pairwise_flatMap_desc
  · intro ce q hq
    simp only [List.mem_filterMap] at hq
    obtain ⟨oc, _, hif⟩ := hq
    split at hif
    · rw [Option.some_inj] at hif
      subst hif
      rfl
    · exact absurd hif (by simp)
  · rw [List.pairwise_reverse]
    exact closeCandidates_pairwise t L

theorem tryPairs_find (o : Oracle) (t : FileText) (target : List Char) :
    ∀ ps, (tryPairs o t target ps).1
      = (ps.find? fun q =>
          decide (o ((t.slice q.spos q.epos).content) = some target)).map
            fun q => (q.spos, q.epos) := by
  intro ps
  induction ps with
  | nil => rfl
  | cons q rest ih =>
    cases ho : o ((t.slice q.spos q.epos).content) with
    | none =>
      rw [List.find?_cons_of_neg _ (by simp [ho])]
      simp only [tryPairs, ho]
      exact ih
    | some v =>
      by_cases hv : v = target
      · subst hv
        rw [List.find?_cons_of_pos _ (by simp [ho])]
        simp [tryPairs, ho]
      · rw [List.find?_cons_of_neg _ (by simp [ho, hv])]
        simp only [tryPairs, ho, if_neg hv]
        split
        · exact ih
        · exact ih

/-- The `matched_prefix` membership test of lines 388–389: the parsed value of
the candidate substring is a strict prefix of the target. -/
def prefixExtract (o : Oracle) (t : FileText) (target : List Char)
    (q : PairCand) : Option FilePos :=
  match o ((t.slice q.spos q.epos).content) with
  | none => none
  | some v => if v ≠ target ∧ v.isPrefixOf target then some q.spos else none

theorem tryPairs_prefixes (o : Oracle) (t : FileText) (target : List Char) :
    ∀ ps, (tryPairs o t target ps).1 = none →
      (tryPairs o t target ps).2 = ps.filterMap (prefixExtract o t target) := by
  intro ps
  induction ps with
  | nil => intro _; rfl
  | cons q rest ih =>
    intro h
    cases ho : o ((t.slice q.spos q.epos).content) with
    | none =>
      simp only [tryPairs, ho] at h ⊢
      rw [List.filterMap_cons]
      simp only [prefixExtract, ho]
      exact ih h
    | some v =>
      by_cases hv : v = target
      · subst hv
        simp [tryPairs, ho] at h
      · by_cases hp : v.isPrefixOf target = true
        · simp only [tryPairs, ho, if_neg hv, if_pos hp] at h ⊢
          rw [List.filterMap_cons]
          simp only [prefixExtract, ho]
          rw [if_pos (And.intro hv hp)]
          rw [ih h]
        · simp only [tryPairs, ho, if_neg hv, if_neg hp] at h ⊢
          rw [List.filterMap_cons]
          simp only [prefixExtract, ho]
          rw [if_neg fun hcon => hp hcon.2]
          exact ih h

theorem searchLoop_success {o : Oracle} {t : FileText} {target : List Char}
    {fe L : Nat} {rest : List Nat} {opens : List (Char × FilePos)}
    {p : FilePos × FilePos} {mp : List FilePos}
    (h : tryPairs o t target (buildPairs opens (closeCandidates t L)) = (some p, mp)) :
    searchLoop o t target fe (L :: rest) opens = .ok p := by
  have hne : (closeCandidates t L).isEmpty = false := by
    rcases hc : (closeCandidates t L).isEmpty with _ | _
    · rfl
    · rw [List.isEmpty_iff] at hc
      rw [hc] at h
      simp [buildPairs, likelyPairs, unlikelyPairs, tryPairs] at h
  simp only [searchLoop, hne, Bool.false_eq_true, if_false, h]

theorem searchLoop_narrow {o : Oracle} {t : FileText} {target : List Char}
    {fe L : Nat} {rest : List Nat} {opens : List (Char × FilePos)}
    {mp : List FilePos}
    (hne : closeCandidates t L ≠ [])
    (h : tryPairs o t target (buildPairs opens (closeCandidates t L)) = (none, mp))
    (hmp : mp ≠ []) :
    searchLoop o t target fe (L :: rest) opens
      = searchLoop o t target fe rest (opens.filter fun oc => decide (oc.2 ∈ mp)) := by
  have h1 : (closeCandidates t L).isEmpty = false := by
    rcases hc : (closeCandidates t L).isEmpty with _ | _
    · rfl
    · exact absurd (List.isEmpty_iff.mp hc) hne
  have h2 : mp.isEmpty = false := by
    rcases hc : mp.isEmpty with _ | _
    · rfl
    · exact absurd (List.isEmpty_iff.mp hc) hmp
  simp only [searchLoop, h1, Bool.false_eq_true, if_false, h, h2]

theorem searchLoop_step (o : Oracle) (t : FileText) (target : List Char)
    (fe L : Nat) (rest : List Nat) (opens : List (Char × FilePos)) :
    searchLoop o t target fe (L :: rest) opens = .error .noQuoteChar ∨
    (∃ p, searchLoop o t target fe (L :: rest) opens = .ok p) ∨
    searchLoop o t target fe (L :: rest) opens = .error .notFound ∨
    (∃ opens', opens'.Sublist opens ∧
      searchLoop o t target fe (L :: rest) opens
        = searchLoop o t target fe rest opens') := by
  by_cases hclose : (closeCandidates t L).isEmpty = true
  · have hnil : closeCandidates t L = [] := List.isEmpty_iff.mp hclose
    by_cases hL : L = fe
    · left
      subst hL
      simp [searchLoop, hnil]
    · right; right; right
      exact ⟨opens, List.Sublist.refl _, by simp [searchLoop, hnil, hL]⟩
  · have hcl : (closeCandidates t L).isEmpty = false := by
      rcases h : (closeCandidates t L).isEmpty with _ | _
      · rfl
      · exact absurd h hclose
    match htry : tryPairs o t target (buildPairs opens (closeCandidates t L)) with
    | (some p, mp) =>
      right; left
      exact ⟨p, searchLoop_success htry⟩
    | (none, mp) =>
      by_cases hmp : mp.isEmpty = true
      · right; right; left
        simp only [searchLoop, hcl, Bool.false_eq_true, if_false, htry, hmp, if_true]
      · right; right; right
        refine ⟨opens.filter fun oc => decide (oc.2 ∈ mp), List.filter_sublist _, ?_⟩
        refine searchLoop_narrow ?_ htry ?_
        · intro hc
          rw [hc] at hcl
          simp at hcl
        · intro hc
          rw [hc] at hmp
          simp at hmp

/-- C2: in the bounded search, for each end line the candidate (open, close)
pairs — all with open < close — are tried with all matching-quote-character
pairs before any mismatched-quote pairs, and within each of those two classes
in order of decreasing (non-increasing) close position; a pair succeeds (both
its positions are recorded and the search stops) exactly when it is the first
pair in this order whose candidate substring parses in isolation to a string
literal whose value equals the target value; and before moving to the next
end line (when pairs were tried without success) the open-candidate set is
narrowed to exactly those opens whose parsed value was a strict prefix of the
target. -/
theorem C2_pair_order_and_narrowing (o : Oracle) (t : FileText)
    (target : List Char) (opens : List (Char × FilePos)) (L : Nat) :
    (∀ q ∈ buildPairs opens (closeCandidates t L), q.spos < q.epos) ∧
    (buildPairs opens (closeCandidates t L)
      = (buildPairs opens (closeCandidates t L)).filter
          (fun q => decide (q.sq = q.eq))
        ++ (buildPairs opens (closeCandidates t L)).filter
          (fun q => ! decide (q.sq = q.eq))) ∧
    ((likelyPairs opens (closeCandidates t L)).Pairwise
      fun a b => b.epos ≤ a.epos) ∧
    ((unlikelyPairs opens (closeCandidates t L)).Pairwise
      fun a b => b.epos ≤ a.epos) ∧
    ((tryPairs o t target (buildPairs opens (closeCandidates t L))).1
      = ((buildPairs opens (closeCandidates t L)).find? fun q =>
          decide (o ((t.slice q.spos q.epos).content) = some target)).map
            fun q => (q.spos, q.epos)) ∧
    (∀ fe rest p mp,
      tryPairs o t target (buildPairs opens (closeCandidates t L)) = (some p, mp) →
      searchLoop o t target fe (L :: rest) opens = .ok p) ∧
    (∀ fe rest mp, closeCandidates t L ≠ [] →
      tryPairs o t target (buildPairs opens (closeCandidates t L)) = (none, mp) →
      mp ≠ [] →
      (searchLoop o t target fe (L :: rest) opens
        = searchLoop o t target fe rest
            (opens.filter fun oc => decide (oc.2 ∈ mp))) ∧
      mp = (buildPairs opens (closeCandidates t L)).filterMap
            (prefixExtract o t target)) := by
  refine ⟨fun q hq => buildPairs_open_lt_close hq,
    buildPairs_classes opens (closeCandidates t L),
    likelyPairs_desc t L opens, unlikelyPairs_desc t L opens,
    tryPairs_find o t target _, ?_, ?_⟩
  · intro fe rest p mp htry
    exact searchLoop_success htry
  · intro fe rest mp hne htry hmp
    refine ⟨searchLoop_narrow hne htry hmp, ?_⟩
    have h1 : (tryPairs o t target (buildPairs opens (closeCandidates t L))).1
        = none := by rw [htry]
    have h2 := tryPairs_prefixes o t target _ h1
    rw [htry] at h2
    exact h2

/-- Concrete text for the C2/C3 witnesses: two adjacent lines holding the
multiline literal of spec §4.2 (`'''a\nb'''+x`). -/
def c2T : FileText :=
  ⟨⟨1, 1⟩, tripleQuote ++ (("a\nb").toList) ++ tripleQuote ++ (("+x").toList)⟩

/-- Concrete oracle: the CPython parser on this text parses exactly the full
substring of the literal to its value and rejects every other candidate. -/
def c2o : Oracle :=
  fun s =>
    if s = tripleQuote ++ (("a\nb").toList) ++ tripleQuote
    then some (("a\nb").toList) else none

/-- C2 (witness): on `c2T` the search stops at the recorded pair
`((1,1), (2,5))` for the exact value, and for a longer target value (of which
the parsed value is a strict prefix) the open-candidate set is narrowed to
exactly the viable open `(1,1)` before the next end line. -/
theorem C2_witness :
    searchLoop c2o c2T (("a\nb").toList) 2 [2] (openCandidates c2T 1 2)
      = .ok (⟨1, 1⟩, ⟨2, 5⟩) ∧
    searchLoop c2o c2T (("a\nbXX").toList) 2 [2] (openCandidates c2T 1 2)
      = searchLoop c2o c2T (("a\nbXX").toList) 2 []
          ((openCandidates c2T 1 2).filter
            fun oc => decide (oc.2 ∈ ([⟨1, 1⟩] : List FilePos))) := by
  constructor
  · exact (C2_pair_order_and_narrowing c2o c2T (("a\nb").toList)
      (openCandidates c2T 1 2) 2).2.2.2.2.2.1 2 [2] (⟨1, 1⟩, ⟨2, 5⟩) []
      (by decide)
  · exact ((C2_pair_order_and_narrowing c2o c2T (("a\nbXX").toList)
      (openCandidates c2T 1 2) 2).2.2.2.2.2.2 2 [] [⟨1, 1⟩]
      (by decide) (by decide) (by decide)).1

/-- C3: the bounded search always terminates on every input text: the
end-line enumeration that drives the loop is bounded by the text's last line;
each loop step either resolves (success or an unrecoverable fault) or
recurses on the strictly shorter remaining enumeration with an open-candidate
set that is a sublist of (monotonically non-increasing from) the current one;
and when the enumeration is exhausted without a match the search returns the
unrecoverable fault (`ValueError`) rather than looping. -/
theorem C3_search_terminates (o : Oracle) (t : FileText) (target : List Char)
    (fe : Nat) :
    (∀ l ∈ endLineEnumeration t fe, fe ≤ l ∧ l ≤ t.endpos.lineno) ∧
    (∀ (minpos : FilePos) (nodeLineno : Nat),
      minpos.lineno ≤ t.startpos.lineno + nodeLineno - 1 →
      annotate_ast_startpos_search o t minpos nodeLineno target
        = searchLoop o t target (t.startpos.lineno + nodeLineno - 1)
            (endLineEnumeration t (t.startpos.lineno + nodeLineno - 1))
            (openCandidates t minpos.lineno
              (t.startpos.lineno + nodeLineno - 1))) ∧
    (∀ opens, searchLoop o t target fe [] opens = .error .notFound) ∧
    (∀ L rest opens,
      searchLoop o t target fe (L :: rest) opens = .error .noQuoteChar ∨
      (∃ p, searchLoop o t target fe (L :: rest) opens = .ok p) ∨
      searchLoop o t target fe (L :: rest) opens = .error .notFound ∨
      (∃ opens', opens'.Sublist opens ∧
        searchLoop o t target fe (L :: rest) opens
          = searchLoop o t target fe rest opens')) := by
  refine ⟨?_, ?_, fun opens => rfl, fun L rest opens => searchLoop_step o t target fe L rest opens⟩
  · intro l hl
    rw [endLineEnumeration, List.mem_range'_1] at hl
    omega
  · intro minpos nodeLineno hmin
    rw [annotate_ast_startpos_search, if_pos hmin]

/-- C3 (witness): the theorem applied to the concrete text `c2T`: the
enumeration for the reported end line 2 is `[2]`, bounded by the last line 2;
the exhausted enumeration faults; and the one enumerated step resolves. -/
theorem C3_witness :
    (2 ≤ 2 ∧ 2 ≤ c2T.endpos.lineno) ∧
    annotate_ast_startpos_search c2o c2T ⟨1, 1⟩ 2 (("a\nb").toList)
      = searchLoop c2o c2T (("a\nb").toList) 2 (endLineEnumeration c2T 2)
          (openCandidates c2T 1 2) ∧
    searchLoop c2o c2T (("a\nb").toList) 2 [] (openCandidates c2T 1 2)
      = .error .notFound := by
  obtain ⟨h1, h2, h3, _⟩ := C3_search_terminates c2o c2T (("a\nb").toList) 2
  exact ⟨h1 2 (by decide), h2 ⟨1, 1⟩ 2 (by decide), h3 (openCandidates c2T 1 2)⟩

/-! ### The AST model, the ordered child enumerator
(`_iter_child_nodes_in_order`, lines 56–96) and the position annotator
(`_annotate_ast_startpos`, lines 179–402)

A node is either a string literal (`ast.Str`, carrying its evaluated value),
a mapping literal (`ast.Dict`, carrying its key and value child lists), or a
generic node of some kind with its child nodes in field order.  `info` is the
parser-reported `(lineno, col_offset)` metadata (absent on `ast.Module`,
`ast.alias`, ...); `col_offset = -1` is the unknown-column sentinel. -/

inductive Ast where
  | strLit (lineno : Nat) (colOffset : Int) (value : List Char)
  | dict (lineno : Nat) (colOffset : Int) (keys : List Ast) (values : List Ast)
  | node (kind : String) (info : Option (Nat × Int)) (children : List Ast)
deriving Repr

/-- The `zip(node.keys, node.values)` interleaving of line 75 (flattened by
`_flatten_ast_nodes`): each key immediately followed by its paired value,
truncated at the shorter list like Python's `zip`. -/
def interleavePairs : List Ast → List Ast → List Ast
  | k :: ks, v :: vs => k :: v :: interleavePairs ks vs
  | _, _ => []

/-- `_iter_child_nodes_in_order` (lines 56–96) restricted to the node kinds of
this model: `Dict` interleaves its key/value pairs in source order; a string
literal has no child nodes; any other node yields its children in field
order. -/
def iter_child_nodes_in_order : Ast → List Ast
  | .strLit _ _ _ => []
  | .dict _ _ ks vs => interleavePairs ks vs
  | .node _ _ cs => cs

/-- What `ast.iter_child_nodes` would yield for a mapping literal: all key
nodes before all value nodes (field declaration order), the behavior the
Ordered Child Enumerator overrides. -/
def iter_child_nodes_default : Ast → List Ast
  | .dict _ _ ks vs => ks ++ vs
  | x => iter_child_nodes_in_order x

theorem list_sizeOf_pos {α : Type} [SizeOf α] (l : List α) : 1 ≤ sizeOf l := by
  cases l with
  | nil => rw [List.nil.sizeOf_spec]
  | cons a l => rw [List.cons.sizeOf_spec]; omega

theorem sizeOf_interleavePairs :
    ∀ (ks vs : List Ast), sizeOf (interleavePairs ks vs) ≤ sizeOf ks + sizeOf vs := by
  intro ks
  induction ks with
  | nil =>
    intro vs
    have h : interleavePairs [] vs = [] := by cases vs <;> rfl
    rw [h]
    have h1 := list_sizeOf_pos ([] : List Ast)
    have h2 := list_sizeOf_pos vs
    omega
  | cons k ks ih =>
    intro vs
    cases vs with
    | nil =>
      rw [show interleavePairs (k :: ks) [] = [] from rfl]
      have h1 := list_sizeOf_pos ([] : List Ast)
      have h2 := list_sizeOf_pos (k :: ks)
      omega
    | cons v vs =>
      rw [interleavePairs]
      have := ih vs
      simp only [List.cons.sizeOf_spec]
      omega

theorem sizeOf_iter_child_nodes_in_order (x : Ast) :
    sizeOf (iter_child_nodes_in_order x) < sizeOf x := by
  cases x with
  | strLit l c v =>
    have hv := list_sizeOf_pos v
    simp only [iter_child_nodes_in_order, Ast.strLit.sizeOf_spec, List.nil.sizeOf_spec]
    omega
  | dict l c ks vs =>
    have := sizeOf_interleavePairs ks vs
    have hk := list_sizeOf_pos ks
    simp only [iter_child_nodes_in_order, Ast.dict.sizeOf_spec]
    omega
  | node k i cs =>
    simp only [iter_child_nodes_in_order, Ast.node.sizeOf_spec]
    omega

/-- The `hasattr(node, 'lineno')` test (lines 239, 263). -/
def Ast.hasLineno : Ast → Bool
  | .strLit _ _ _ => true
  | .dict _ _ _ _ => true
  | .node _ i _ => i.isSome

/-- The parser-reported `(lineno, col_offset)` metadata of a node. -/
def Ast.info : Ast → Option (Nat × Int)
  | .strLit l c _ => some (l, c)
  | .dict l c _ _ => some (l, c)
  | .node _ i _ => i

/-- The `type(node).__name__` used in diagnostics. -/
def Ast.kindName : Ast → String
  | .strLit _ _ _ => "Str"
  | .dict _ _ _ _ => "Dict"
  | .node k _ _ => k

/-- The `isinstance(node, ast.Str)` test with the literal's value. -/
def Ast.strValue : Ast → Option (List Char)
  | .strLit _ _ v => some v
  | _ => none

/-- The annotation attached to one node: its resolved `startpos` (absent for
nodes without position metadata), the `endpos` recorded by the bounded search
for ambiguous string literals, the returned ambiguous-leftmost flag, and the
annotations of its children in enumeration order. -/
structure AnnResult where
  startpos : Option FilePos
  endpos : Option FilePos
  leftstr : Bool
  children : List AnnResult
deriving Repr

/-- The faults the annotator can raise: the out-of-order internal-consistency
`AssertionError` of lines 240–258 (carrying the offending parent node kind,
the running lower bound, and the offending child's resolved start), the
`assert` failures of lines 273 and 292–294, the `ValueError` of line 300 for
a non-string sentinel node, and the faults of the bounded search. -/
inductive AnnErr where
  | outOfOrder (parentKind : String) (bound : FilePos) (childStart : FilePos)
  | missingStartpos
  | leftstrAssert
  | colOffsetAssert
  | nonStrSentinel (kind : String)
  | search (e : SearchErr)
deriving DecidableEq, Repr

/-- Lines 261–402: determine this node's own start once the children have
been annotated.  `lsn` is the `leftstr_node` (the first child, if it was
flagged ambiguous-leftmost, with its annotation). -/
def resolveSelf (o : Oracle) (t : FileText) (x : Ast) (minp : FilePos)
    (anns : List AnnResult) (lsn : Option (Ast × AnnResult)) :
    Except AnnErr AnnResult :=
  match x.info with
  | none => .ok ⟨none, none, false, anns⟩
  | some (lineno, colOff) =>
    if 0 ≤ colOff then
      -- lines 266–272: genuine column; translate via the text's anchor.
      .ok ⟨some (t.startpos.addDelta (lineno - 1) colOff.toNat), none, false, anns⟩
    else if colOff ≠ -1 then .error .colOffsetAssert
    else
      match lsn with
      | some (c, rc) =>
        -- lines 274–296: inherit the ambiguous-leftmost child's start.
        if x.strValue.isSome then .error .leftstrAssert
        else
          match c.info with
          | some (clineno, ccolOff) =>
            if clineno = lineno ∧ ccolOff = -1 then .ok ⟨rc.startpos, none, true, anns⟩
            else .error .leftstrAssert
          | none => .error .leftstrAssert
      | none =>
        -- lines 297–402: must be a multiline string literal; bounded search.
        match x.strValue with
        | some v =>
          match annotate_ast_startpos_search o t minp lineno v with
          | .ok (sp, ep) => .ok ⟨some sp, some ep, true, anns⟩
          | .error e => .error (.search e)
        | none => .error (.nonStrSentinel x.kindName)

mutual

/-- `_annotate_ast_startpos` (lines 179–402): annotate children first (in
enumerator order), then resolve this node's own start. -/
def annotate (o : Oracle) (t : FileText) (x : Ast) (minp : FilePos) :
    Except AnnErr AnnResult :=
  match annotateChildren o t x.kindName (iter_child_nodes_in_order x) minp true with
  | .error e => .error e
  | .ok (anns, _, lsn) => resolveSelf o t x minp anns lsn
termination_by sizeOf x
decreasing_by
  exact sizeOf_iter_child_nodes_in_order x

/-- The child loop of lines 232–260: annotate each child with the running
lower bound, fault if a child with position metadata resolves strictly before
the bound, raise the bound to the child's resolved start, and remember the
first child when it is flagged ambiguous-leftmost. -/
def annotateChildren (o : Oracle) (t : FileText) (pk : String) (cs : List Ast)
    (minp : FilePos) (isFirst : Bool) :
    Except AnnErr (List AnnResult × FilePos × Option (Ast × AnnResult)) :=
  match cs with
  | [] => .ok ([], minp, none)
  | c :: rest =>
    match annotate o t c minp with
    | .error e => .error e
    | .ok r =>
      let lsn0 : Option (Ast × AnnResult) :=
        if isFirst && r.leftstr then some (c, r) else none
      if c.hasLineno then
        match r.startpos with
        | none => .error .missingStartpos
        | some sp =>
          if sp < minp then .error (.outOfOrder pk minp sp)
          else
            match annotateChildren o t pk rest sp false with
            | .error e => .error e
            | .ok (rs, mfin, lsnR) =>
              .ok (r :: rs, mfin, if lsn0.isSome then lsn0 else lsnR)
      else
        match annotateChildren o t pk rest minp false with
        | .error e => .error e
        | .ok (rs, mfin, lsnR) =>
          .ok (r :: rs, mfin, if lsn0.isSome then lsn0 else lsnR)
termination_by sizeOf cs
decreasing_by
  all_goals simp only [List.cons.sizeOf_spec]
  all_goals omega

end

/-! ### Claim C7: mapping-literal child order -/

theorem interleavePairs_length :
    ∀ (ks vs : List Ast), (interleavePairs ks vs).length
      = 2 * min ks.length vs.length := by
  intro ks
  induction ks with
  | nil =>
    intro vs
    have h : interleavePairs [] vs = [] := by cases vs <;> rfl
    simp [h]
  | cons k ks ih =>
    intro vs
    cases vs with
    | nil => simp [interleavePairs]
    | cons v vs =>
      rw [interleavePairs]
      simp only [List.length_cons, ih, List.length_cons]
      omega

theorem interleavePairs_get :
    ∀ (ks vs : List Ast) (i : Nat), i < ks.length → i < vs.length →
      (interleavePairs ks vs).get? (2 * i) = ks.get? i ∧
      (interleavePairs ks vs).get? (2 * i + 1) = vs.get? i := by
  intro ks
  induction ks with
  | nil => intro vs i h1 _; simp at h1
  | cons k ks ih =>
    intro vs i h1 h2
    cases vs with
    | nil => simp at h2
    | cons v vs =>
      cases i with
      | zero => exact ⟨rfl, rfl⟩
      | succ i =>
        rw [interleavePairs]
        have e1 : 2 * (i + 1) = 2 * i + 1 + 1 := by omega
        rw [e1]
        simp only [List.get?_cons_succ]
        exact ih vs i (by simpa using h1) (by simpa using h2)

/-- C7: for every mapping-literal node, the Ordered Child Enumerator yields
each key node immediately followed by its paired value node, in the order the
key/value pairs physically appear in the source: position `2*i` of the
enumeration is the `i`-th key and position `2*i + 1` is the `i`-th value, and
the enumeration is exactly the interleaving of the pairs (length `2 * #pairs`)
— never all keys before all values as in `ast.iter_child_nodes`. -/
theorem C7_dict_interleaves (l : Nat) (co : Int) (ks vs : List Ast) :
    (iter_child_nodes_in_order (.dict l co ks vs)).length
      = 2 * min ks.length vs.length ∧
    (∀ i, i < ks.length → i < vs.length →
      (iter_child_nodes_in_order (.dict l co ks vs)).get? (2 * i) = ks.get? i ∧
      (iter_child_nodes_in_order (.dict l co ks vs)).get? (2 * i + 1) = vs.get? i) ∧
    iter_child_nodes_default (.dict l co ks vs) = ks ++ vs := by
  exact ⟨interleavePairs_length ks vs,
    fun i h1 h2 => interleavePairs_get ks vs i h1 h2, rfl⟩

def c7k1 : Ast := .node "NumK1" (some (1, 1)) []
def c7v1 : Ast := .node "NumV1" (some (1, 5)) []
def c7k2 : Ast := .node "NumK2" (some (1, 9)) []
def c7v2 : Ast := .node "NumV2" (some (1, 13)) []

/-- C7 (witness): a two-pair mapping literal enumerates as
key₁, value₁, key₂, value₂. -/
theorem C7_witness :
    (iter_child_nodes_in_order (.dict 1 0 [c7k1, c7k2] [c7v1, c7v2])).get? 0
      = some c7k1 ∧
    (iter_child_nodes_in_order (.dict 1 0 [c7k1, c7k2] [c7v1, c7v2])).get? 1
      = some c7v1 ∧
    (iter_child_nodes_in_order (.dict 1 0 [c7k1, c7k2] [c7v1, c7v2])).get? 2
      = some c7k2 ∧
    (iter_child_nodes_in_order (.dict 1 0 [c7k1, c7k2] [c7v1, c7v2])).get? 3
      = some c7v2 := by
  obtain ⟨_, hget, _⟩ := C7_dict_interleaves 1 0 [c7k1, c7k2] [c7v1, c7v2]
  obtain ⟨h0, h1⟩ := hget 0 (by decide) (by decide)
  obtain ⟨h2, h3⟩ := hget 1 (by decide) (by decide)
  exact ⟨h0, h1, h2, h3⟩

/-! ### Claim C4: propagation of the ambiguous-leftmost flag -/

/-- C4: during annotation, for every node whose parser-reported column is the
unknown-column sentinel (`col_offset = -1`) and whose first child was flagged
ambiguous-leftmost (the remembered `leftstr_node`), the node's resolved start
equals that child's resolved start verbatim and the node itself is returned
flagged ambiguous-leftmost = true; since `annotate` hands this flag to the
node's own parent, the defect propagates through every ancestor whose
leftmost descendant is the ambiguous literal. -/
theorem C4_inherits_leftstr {o : Oracle} {t : FileText} {x : Ast}
    {minp : FilePos} {L : Nat} {anns : List AnnResult} {m : FilePos}
    {c : Ast} {rc : AnnResult} {r : AnnResult}
    (hinfo : x.info = some (L, -1))
    (hch : annotateChildren o t x.kindName (iter_child_nodes_in_order x) minp true
      = .ok (anns, m, some (c, rc)))
    (hok : annotate o t x minp = .ok r) :
    r.startpos = rc.startpos ∧ r.leftstr = true := by
  rw [annotate, hch] at hok
  simp only [resolveSelf, hinfo] at hok
  rw [if_neg (by norm_num), if_neg (by norm_num)] at hok
  split at hok
  · exact absurd hok (by simp)
  · split at hok
    · split at hok
      · injection hok with h
        subst h
        exact ⟨rfl, rfl⟩
      · exact absurd hok (by simp)
    · exact absurd hok (by simp)

def c4T : FileText :=
  ⟨⟨1, 1⟩, tripleQuote ++ (("a\nb").toList) ++ tripleQuote ++ (("+x").toList)⟩

def c4Str : Ast := .strLit 2 (-1) (("a\nb").toList)

def c4Tree : Ast := .node "BinOp" (some (2, -1))
  [c4Str, .node "Name" (some (2, 5)) []]

def c4RC : AnnResult := ⟨some ⟨1, 1⟩, some ⟨2, 5⟩, true, []⟩

def c4RName : AnnResult := ⟨some ⟨2, 6⟩, none, false, []⟩

def c4R : AnnResult := ⟨some ⟨1, 1⟩, none, true, [c4RC, c4RName]⟩

theorem c4_children_eval :
    annotateChildren c2o c4T c4Tree.kindName (iter_child_nodes_in_order c4Tree)
      ⟨1, 1⟩ true = .ok ([c4RC, c4RName], ⟨2, 6⟩, some (c4Str, c4RC)) := by
  have hs : annotate_ast_startpos_search c2o c4T ⟨1, 1⟩ 2 (("a\nb").toList)
      = .ok (⟨1, 1⟩, ⟨2, 5⟩) := rfl
  have hT : c4T.startpos = ⟨1, 1⟩ := rfl
  simp only [iter_child_nodes_in_order, c4Tree, annotate, annotateChildren,
    resolveSelf, Ast.info, Ast.strValue, Ast.hasLineno, Ast.kindName, c4Str,
    hs, hT, FilePos.addDelta, c4RC, c4RName]
  rfl

theorem c4_annotate_eval : annotate c2o c4T c4Tree ⟨1, 1⟩ = .ok c4R := by
  rw [annotate, c4_children_eval]
  rfl

/-- C4 (witness): the theorem applied to `'''a\nb'''+x`: the `BinOp` node
(whose reported column is the sentinel) inherits the string literal's
resolved start `(1,1)` and is flagged ambiguous-leftmost. -/
theorem C4_witness : c4R.startpos = c4RC.startpos ∧ c4R.leftstr = true :=
  @C4_inherits_leftstr c2o c4T c4Tree ⟨1, 1⟩ 2 [c4RC, c4RName] ⟨2, 6⟩
    c4Str c4RC c4R rfl c4_children_eval c4_annotate_eval

/-! ### Claim C5: the out-of-order internal-consistency fault -/

def c5T : FileText := ⟨⟨1, 1⟩, ("x").toList⟩

def c5Tree : Ast := .node "Expr" (some (1, 0)) [.node "Name" (some (1, 0)) []]

/-- C5 (counterexample): the claim says the fault is raised whenever a
child's resolved start is NOT STRICTLY GREATER than the running lower bound;
but the code (line 240) raises only on `child_node.startpos < child_minpos`.
Here the single child resolves exactly at the lower bound `(1,1)` — not
strictly greater than it — and annotation nevertheless succeeds (as it must:
a statement's first child routinely starts at the statement's own
position). -/
theorem C5_counterexample :
    annotate c2o c5T c5Tree ⟨1, 1⟩
      = .ok ⟨some ⟨1, 1⟩, none, false, [⟨some ⟨1, 1⟩, none, false, []⟩]⟩ ∧
    ¬ ((⟨1, 1⟩ : FilePos) < ⟨1, 1⟩) := by
  constructor
  · simp only [annotate, annotateChildren, resolveSelf, c5Tree,
      iter_child_nodes_in_order, Ast.info, Ast.hasLineno, Ast.kindName,
      Ast.strValue, FilePos.addDelta]
    rfl
  · exact lt_irrefl _

/-- C5 (amended): during annotation of a node's children in enumerator order,
whenever a child with position metadata resolves to a start strictly less
than the running lower bound, the annotator raises the internal-consistency
fault whose diagnostic names the offending node kind and shows the observed
sibling ordering (the bound and the offending resolved start); and whenever
the child's resolved start is greater than or equal to the bound — in
particular on inputs where every child's start is strictly greater — this
fault is not raised at that child: the loop continues with the bound raised
to the child's resolved start. -/
theorem C5_out_of_order_fault {o : Oracle} {t : FileText} {pk : String}
    {c : Ast} {rest : List Ast} {minp : FilePos} {isFirst : Bool}
    {r : AnnResult} {sp : FilePos}
    (hc : annotate o t c minp = .ok r) (hsp : r.startpos = some sp)
    (hln : c.hasLineno = true) :
    (sp < minp → annotateChildren o t pk (c :: rest) minp isFirst
        = .error (.outOfOrder pk minp sp)) ∧
    (¬ sp < minp → annotateChildren o t pk (c :: rest) minp isFirst
        = match annotateChildren o t pk rest sp false with
          | .error e => .error e
          | .ok (rs, mfin, lsnR) =>
            .ok (r :: rs, mfin,
              if (if isFirst && r.leftstr then some (c, r) else none).isSome
              then if isFirst && r.leftstr then some (c, r) else none
              else lsnR)) := by
  constructor
  · intro hlt
    simp only [annotateChildren, hc, hln, hsp, if_pos hlt, if_true]
  · intro hge
    simp only [annotateChildren, hc, hln, hsp, if_neg hge, if_true]

def c5T2 : FileText := ⟨⟨1, 1⟩, ("a, b").toList⟩

def c5child : Ast := .node "Name" (some (1, 0)) []

/-- C5 (witness): the amended theorem applied concretely: with the running
bound at `(1,3)` a child resolving to `(1,1)` faults with the parent kind and
the observed ordering in the diagnostic; with the bound at `(1,1)` the same
child (start equal to the bound) is accepted. -/
theorem C5_witness :
    annotateChildren c2o c5T2 "Tuple" [c5child] ⟨1, 3⟩ false
      = .error (.outOfOrder "Tuple" ⟨1, 3⟩ ⟨1, 1⟩) ∧
    annotateChildren c2o c5T2 "Tuple" [c5child] ⟨1, 1⟩ false
      = .ok ([⟨some ⟨1, 1⟩, none, false, []⟩], ⟨1, 1⟩, none) := by
  have hc3 : annotate c2o c5T2 c5child ⟨1, 3⟩ = .ok ⟨some ⟨1, 1⟩, none, false, []⟩ := by
    simp only [annotate, annotateChildren, resolveSelf, c5child,
      iter_child_nodes_in_order, Ast.info, FilePos.addDelta]
    rfl
  have hc1 : annotate c2o c5T2 c5child ⟨1, 1⟩ = .ok ⟨some ⟨1, 1⟩, none, false, []⟩ := by
    simp only [annotate, annotateChildren, resolveSelf, c5child,
      iter_child_nodes_in_order, Ast.info, FilePos.addDelta]
    rfl
  constructor
  · exact (@C5_out_of_order_fault c2o c5T2 "Tuple" c5child [] ⟨1, 3⟩ false
      ⟨some ⟨1, 1⟩, none, false, []⟩ ⟨1, 1⟩ hc3 rfl rfl).1 (by decide)
  · have h := (@C5_out_of_order_fault c2o c5T2 "Tuple" c5child [] ⟨1, 1⟩ false
      ⟨some ⟨1, 1⟩, none, false, []⟩ ⟨1, 1⟩ hc1 rfl rfl).2 (by decide)
    rw [h]
    simp only [annotateChildren]
    rfl

/-! ### The Block/Statement façade (claims C8, C9, C10)

`PythonBlock.statements` (lines 793–827) is reduced to its branching
structure: one statement per chunk, except that a single chunk covering the
whole block returns the single statement backed by the block object itself. -/

inductive StatementsView where
  | selfStatement
  | subStatements (chunks : List Chunk)
deriving DecidableEq, Repr

/-- `PythonBlock.statements` (lines 793–827): split; if the result is exactly
one chunk holding the whole node list and the whole text (the Python
comparison `nodes_subtexts == [(self.ast_node.body, self.text)]`, modelled by
comparing the chunk's node list and span against the block's), return the
single statement constructed from the block itself; otherwise carve one
statement per chunk.  `none` models a failing splitter assertion. -/
def blockStatements (nodes : List SplitNode) (t : FileText) :
    Option StatementsView :=
  (split_code_lines nodes t).map fun cs =>
    if cs = [⟨nodes, t.startpos, t.endpos⟩] then .selfStatement
    else .subStatements cs

/-- C10: for every text span paired with an empty top-level node sequence,
the splitter yields exactly one chunk consisting of no node and the entire
span; consequently a block containing only comments and blank lines (whose
parsed module body is empty) has a statement partition of exactly one
statement whose text is the whole block's text, and that statement's backing
block is the original block object itself (the `selfStatement` branch of
lines 810–813). -/
theorem C10_comment_only_block (t : FileText) :
    split_code_lines [] t = some [⟨[], t.startpos, t.endpos⟩] ∧
    blockStatements [] t = some .selfStatement := by
  refine ⟨rfl, ?_⟩
  rw [blockStatements, show split_code_lines [] t
    = some [⟨[], t.startpos, t.endpos⟩] from rfl, Option.map_some', if_pos rfl]

/-- `PythonBlock` as needed by `concatenate` (lines 711–734): its text span,
its effective compiler flags — modelled from the spec:
`pyflyby._flags.CompilerFlags` (not under `src/`) is an integer bitset merged
by bitwise OR — and its top-level AST nodes (`ast_node.body`). -/
structure PBlock where
  text : FileText
  flags : Nat
  body : List SplitNode
deriving DecidableEq, Repr

inductive ConcatErr where
  | notImplemented
  | emptyBlocks
deriving DecidableEq, Repr

/-- Modelled from the spec: `FileText.concatenate` of `pyflyby._file` —
concatenation of contiguous buffers (contiguity is the caller's
responsibility and is not reverified), anchored at the first buffer's start
position. -/
def FileText.concatTexts : List FileText → FileText
  | [] => ⟨⟨1, 1⟩, []⟩
  | t :: ts => ⟨t.startpos, (t :: ts).flatMap FileText.content⟩

/-- `PythonBlock.concatenate` (lines 711–734): refuse
`assume_contiguous=False` (`NotImplementedError`); return a single block
unchanged; otherwise join the texts, splice the top-level nodes, and take the
flags of the FIRST block only. -/
def PBlock.concatenate (blocks : List PBlock) (assumeContiguous : Bool) :
    Except ConcatErr PBlock :=
  if !assumeContiguous then .error .notImplemented
  else
    match blocks with
    | [b] => .ok b
    | [] => .error .emptyBlocks
    | b :: rest =>
      .ok ⟨FileText.concatTexts ((b :: rest).map PBlock.text), b.flags,
        (b :: rest).flatMap PBlock.body⟩

/-- C9: for every list of two or more blocks passed to `concatenate` with
`assume_contiguous=True`, the resulting block's feature flags equal the first
input block's flags — since this holds for every tail, the flags of every
later input block are ignored, even when a later block declares additional
flags of its own; and calling `concatenate` with `assume_contiguous=False`
always raises `NotImplementedError`, regardless of the blocks. -/
theorem C9_concatenate_flags :
    (∀ blocks : List PBlock, PBlock.concatenate blocks false
      = .error .notImplemented) ∧
    (∀ (b : PBlock) (rest : List PBlock), rest ≠ [] →
      ∃ res, PBlock.concatenate (b :: rest) true = .ok res ∧
        res.flags = b.flags) := by
  refine ⟨fun blocks => rfl, ?_⟩
  intro b rest hne
  match rest with
  | [] => exact absurd rfl hne
  | b2 :: rest' => exact ⟨_, rfl, rfl⟩

def c9b1 : PBlock := ⟨⟨⟨1, 1⟩, ("x=1\n").toList⟩, 1, [⟨⟨1, 1⟩, none⟩]⟩

def c9b2 : PBlock := ⟨⟨⟨2, 1⟩, ("y=2\n").toList⟩, 2, [⟨⟨2, 1⟩, none⟩]⟩

/-- C9 (witness): two contiguous blocks with flags 1 and 2: the concatenation
keeps flags 1 (the second block's flag bit is dropped), and
`assume_contiguous=False` raises. -/
theorem C9_witness :
    PBlock.concatenate [c9b1, c9b2] false = .error .notImplemented ∧
    ∃ res, PBlock.concatenate [c9b1, c9b2] true = .ok res ∧
      res.flags = c9b1.flags := by
  obtain ⟨h1, h2⟩ := C9_concatenate_flags
  exact ⟨h1 [c9b1, c9b2], h2 c9b1 [c9b2] (by simp)⟩

/-! ### Claim C8: memoization and cached failures -/

/-- Modelled from the spec: a `PythonBlock`'s mutable memo state — the
success caches installed by `cached_attribute` of `pyflyby._util` (not under
`src/`) for `ast_node` and `statements`, and the `_failed_compile` failure
cache of lines 766–778. -/
structure BlockSt where
  text : FileText
  filename : Option (List Char)
  astCache : Option (List SplitNode)
  failedCompile : Option (List Char)
  stmtsCache : Option StatementsView
deriving DecidableEq, Repr

/-- Line 775: `"While parsing %s: %s" % (filename, e)` when a filename is
known. -/
def prefixParseError (filename : Option (List Char)) (msg : List Char) :
    List Char :=
  match filename with
  | some f => (("While parsing ").toList) ++ f ++ ((": ").toList) ++ msg
  | none => msg

/-- `PythonBlock.ast_node` (lines 748–778): return the cached tree if
present; re-raise a cached failure; otherwise run the external parse step
(the oracle `parse`, standing for `_parse_annotate_ast_nodes`), prefix the
filename into a failure message, and cache the outcome. -/
def ast_node_access (parse : Unit → Except (List Char) (List SplitNode))
    (b : BlockSt) : Except (List Char) (List SplitNode) × BlockSt :=
  match b.astCache with
  | some a => (.ok a, b)
  | none =>
    match b.failedCompile with
    | some e => (.error e, b)
    | none =>
      match parse () with
      | .ok a => (.ok a, { b with astCache := some a })
      | .error e =>
        (.error (prefixParseError b.filename e),
         { b with failedCompile := some (prefixParseError b.filename e) })

/-- `PythonBlock.statements` (lines 793–827) as a memoized accessor: return
the cached partition if present; otherwise access the node tree (re-raising
its cached failure) and split. -/
def statements_access (parse : Unit → Except (List Char) (List SplitNode))
    (b : BlockSt) : Except (List Char) StatementsView × BlockSt :=
  match b.stmtsCache with
  | some s => (.ok s, b)
  | none =>
    match ast_node_access parse b with
    | (.error e, b1) => (.error e, b1)
    | (.ok body, b1) =>
      match blockStatements body b1.text with
      | none => (.error (("AssertionError").toList), b1)
      | some v => (.ok v, { b1 with stmtsCache := some v })

theorem ast_node_access_idem
    (parse parse2 : Unit → Except (List Char) (List SplitNode)) (b : BlockSt) :
    ast_node_access parse2 (ast_node_access parse b).2 = ast_node_access parse b := by
  match h1 : b.astCache with
  | some a => simp [ast_node_access, h1]
  | none =>
    match h2 : b.failedCompile with
    | some e => simp [ast_node_access, h1, h2]
    | none =>
      match h3 : parse () with
      | .ok a => simp [ast_node_access, h1, h2, h3]
      | .error e => simp [ast_node_access, h1, h2, h3]

theorem ast_node_access_stmtsCache
    (parse : Unit → Except (List Char) (List SplitNode)) (b : BlockSt) :
    (ast_node_access parse b).2.stmtsCache = b.stmtsCache := by
  match h1 : b.astCache with
  | some a => simp [ast_node_access, h1]
  | none =>
    match h2 : b.failedCompile with
    | some e => simp [ast_node_access, h1, h2]
    | none =>
      match h3 : parse () with
      | .ok a => simp [ast_node_access, h1, h2, h3]
      | .error e => simp [ast_node_access, h1, h2, h3]

theorem statements_access_idem
    (parse parse2 : Unit → Except (List Char) (List SplitNode)) (b : BlockSt) :
    statements_access parse2 (statements_access parse b).2
      = statements_access parse b := by
  match hs : b.stmtsCache with
  | some s => simp [statements_access, hs]
  | none =>
    have hidem := ast_node_access_idem parse parse2 b
    have hcache := ast_node_access_stmtsCache parse b
    match ha : ast_node_access parse b with
    | (.error e, b1) =>
      rw [ha] at hidem
      rw [ha] at hcache
      have hb1s : b1.stmtsCache = none := hcache.trans hs
      simp [statements_access, hs, ha, hb1s, hidem]
    | (.ok body, b1) =>
      rw [ha] at hidem
      rw [ha] at hcache
      have hb1s : b1.stmtsCache = none := hcache.trans hs
      match hbs : blockStatements body b1.text with
      | none => simp [statements_access, hs, ha, hb1s, hidem, hbs]
      | some v => simp [statements_access, hs, ha, hbs, hidem, hb1s]

/-- C8: when parsing a block's text fails, the raised error has the source
filename prefixed into its message when a filename is known and the failure
is cached on the block; every subsequent access to the block's node tree —
run with an arbitrary later parse oracle, hence without re-parsing — returns
the identical cached failure with the block state unchanged; and successful
results of the node tree and the statement partition are likewise computed at
most once: a second access (again with any oracle) returns the identical
cached result and leaves the state fixed. -/
theorem C8_cached_parse :
    (∀ (parse : Unit → Except (List Char) (List SplitNode)) (b : BlockSt)
      (e f : List Char),
      b.astCache = none → b.failedCompile = none → b.filename = some f →
      parse () = .error e →
      (ast_node_access parse b).1 = .error (prefixParseError (some f) e) ∧
      (ast_node_access parse b).2.failedCompile
        = some (prefixParseError (some f) e)) ∧
    (∀ parse parse2 b,
      ast_node_access parse2 (ast_node_access parse b).2
        = ast_node_access parse b) ∧
    (∀ parse parse2 b,
      statements_access parse2 (statements_access parse b).2
        = statements_access parse b) := by
  refine ⟨?_, ast_node_access_idem, statements_access_idem⟩
  intro parse b e f h1 h2 h3 h4
  simp [ast_node_access, h1, h2, h3, h4]

def c8parse : Unit → Except (List Char) (List SplitNode) :=
  fun _ => .error (("invalid syntax").toList)

def c8b : BlockSt := ⟨⟨⟨1, 1⟩, ("(").toList⟩, some (("f.py").toList), none, none, none⟩

/-- C8 (witness): a fresh block with filename `f.py` and a failing parse: the
first access raises the prefixed message and caches it; re-access (with the
same or any oracle) returns the identical outcome and state. -/
theorem C8_witness :
    (ast_node_access c8parse c8b).1
      = .error (("While parsing f.py: invalid syntax").toList) ∧
    ast_node_access c8parse (ast_node_access c8parse c8b).2
      = ast_node_access c8parse c8b ∧
    statements_access c8parse (statements_access c8parse c8b).2
      = statements_access c8parse c8b := by
  obtain ⟨h1, h2, h3⟩ := C8_cached_parse
  refine ⟨?_, h2 c8parse c8parse c8b, h3 c8parse c8parse c8b⟩
  have h := (h1 c8parse c8b (("invalid syntax").toList) (("f.py").toList)
    rfl rfl rfl rfl).1
  rw [h]
  rfl

end PyflybyParse
